import Mathlib

/-!
Verification development for `solver.py` ("Are You the One?" solver).

Modeling conventions (shallow embedding of the Python source):

* A Python `dict` mapping contestant names to names is embedded as an
  association list `Pairing := List (String × String)` kept in insertion
  order; `d[k] = v` is `dictSet` (overwrite the first occurrence of the key,
  or append a fresh entry, exactly as a Python dict keeps the original key
  position), `d[k]` lookup is `dictGet` (the raising form is modeled by
  `Option`, `none` standing for `KeyError`).
* A Python `set` of tuples is embedded as a duplicate-free list built with
  `setAdd`; the iteration order of a Python set is unspecified, so the
  embedding fixes first-insertion order.  Only membership, emptiness and
  per-element iteration of these sets are observable in the source.
* Python exceptions are embedded with `Except PyErr`; `PyErr` distinguishes
  `ValueError` (with its message), `KeyError`, `IndexError` and
  `ZeroDivisionError`, since the spec's error claims turn on which kind of
  error is raised.
* `random.random()` draws are embedded by an oracle `Nat → Nat` consumed at
  an explicit counter position; `int(random.random() * n)`, a uniformly
  distributed index in `[0, n)`, is embedded as `oracle c % n`.
* Loops that are not structural in the Python source are embedded with an
  explicit fuel argument; the wrappers supply fuel that the loop cannot
  exhaust on the inputs the theorems below use (`fuelExhausted` marks that
  unreachable branch).
-/

/-- Kinds of Python exceptions the solver can raise. -/
inductive PyErr where
  | valueError (msg : String)
  | keyError
  | indexError
  | zeroDivisionError
  | fuelExhausted
  deriving DecidableEq, Repr

/-- A Python dict from names to names (also used for the set-of-tuples form
of a pairing produced by `_get_all_possible_pairings`, whose tuples have
pairwise distinct first components). -/
abbrev Pairing := List (String × String)

/-- Embedding of Python dict lookup `d[k]`; `none` models `KeyError`. -/
def dictGet : Pairing → String → Option String
  | [], _ => none
  | (a, b) :: rest, k => if a = k then some b else dictGet rest k

/-- Embedding of Python dict assignment `d[k] = v`: overwrite the value at
the first occurrence of the key, keeping its position, or append. -/
def dictSet : Pairing → String → String → Pairing
  | [], k, v => [(k, v)]
  | (a, b) :: rest, k, v => if a = k then (k, v) :: rest else (a, b) :: dictSet rest k v

/-- The keys of an embedded dict, in order. -/
def keysOf (d : Pairing) : List String := d.map Prod.fst

/-- The values of an embedded dict, in order. -/
def valsOf (d : Pairing) : List String := d.map Prod.snd

/-- Embedding of Python `set.add` on a set represented as a duplicate-free
list in first-insertion order. -/
def setAdd (s : Pairing) (x : String × String) : Pairing :=
  if x ∈ s then s else s ++ [x]

/-- Embedding of Python `dict(p)` applied to an iterable of pairs: entries
are inserted left to right, later values for a key overwriting earlier ones
in place. -/
def toDict (l : Pairing) : Pairing :=
  l.foldl (fun d p => dictSet d p.1 p.2) []

/-- The counting loop of `_get_lights` (solver.py lines 339-342): the number
of keys `p` of `guess` with `guess[p] == truth[p]`; `none` models the
`KeyError` raised when `truth` lacks a key of `guess`. -/
def countCorrect : Pairing → Pairing → Option Nat
  | [], _ => some 0
  | (p, v) :: rest, truth =>
      match dictGet truth p with
      | none => none
      | some t => (countCorrect rest truth).map (fun c => (if v = t then 1 else 0) + c)

/-- Embedding of `_get_lights` (solver.py lines 335-344): the number of
agreeing keys, divided by two to adjust for double counting. -/
def _get_lights (guess truth : Pairing) : Option Nat :=
  (countCorrect guess truth).map (fun c => c / 2)

/-- Embedding of `_correct_number` (solver.py lines 232-239). -/
def _correct_number (guess truth : Pairing) (actually_correct : Nat) : Option Bool :=
  (_get_lights guess truth).map (fun l => decide (l = actually_correct))

/-- First loop of `_enforce_symmetric_pairing` (solver.py lines 349-360):
walk the entries in order, and for every earlier key `k` whose recorded
partner equals the current key `p`, require `pairing[p] == k`; the
`symmetric_check` dict is threaded as `check`. -/
def symCheckLoop (d : Pairing) : Pairing → Pairing → Except PyErr Unit
  | [], _ => .ok ()
  | (p, v) :: rest, check =>
      if check.all (fun kv => if kv.2 = p then decide (dictGet d p = some kv.1) else true) then
        symCheckLoop d rest (dictSet check p v)
      else .error (.valueError "The pairings are not symmetric")

/-- Second loop of `_enforce_symmetric_pairing` (solver.py lines 362-363):
`for k in list(pairing.keys()): pairing[pairing[k]] = k`, iterating over a
snapshot of the original keys while the dict is updated in place. -/
def addReverseLoop : List String → Pairing → Pairing
  | [], d => d
  | k :: rest, d =>
      match dictGet d k with
      | some v => addReverseLoop rest (dictSet d v k)
      | none => addReverseLoop rest d

/-- Final check of `_enforce_symmetric_pairing` (solver.py line 364):
`set(pairing) == set(pairing.values())`. -/
def sameKeyValSets (d : Pairing) : Bool :=
  (keysOf d).all (fun k => decide (k ∈ valsOf d)) &&
    (valsOf d).all (fun v => decide (v ∈ keysOf d))

/-- Embedding of `_enforce_symmetric_pairing` (solver.py lines 347-365).
The Python function mutates its argument in place; the embedding returns the
updated dict next to the raised-or-not outcome (on a first-loop error the
dict is still untouched; on a final-check error it has already been
updated). -/
def _enforce_symmetric_pairing (d : Pairing) : Except PyErr Unit × Pairing :=
  match symCheckLoop d d [] with
  | .error e => (.error e, d)
  | .ok () =>
      let d' := addReverseLoop (keysOf d) d
      if sameKeyValSets d' then (.ok (), d')
      else (.error (.valueError "The pairings are not symmetric"), d')

/-- Name check for one weekly dict (solver.py lines 383-385). -/
def checkWeekNames (names : List String) (d : Pairing) : Bool :=
  d.all (fun kv => decide (kv.1 ∈ names) && decide (kv.2 ∈ names))

/-- The per-week loop of `_validate_pairing_inputs` (solver.py lines
381-385): enforce symmetry of each weekly dict (mutating it in place) and
check its names; returns the outcome next to the updated list of weekly
dicts. -/
def weekLoop (names : List String) : List Pairing → Except PyErr Unit × List Pairing
  | [] => (.ok (), [])
  | d :: rest =>
      match _enforce_symmetric_pairing d with
      | (.error e, d') => (.error e, d' :: rest)
      | (.ok (), d') =>
          if checkWeekNames names d' then
            match weekLoop names rest with
            | (r, rest') => (r, d' :: rest')
          else (.error (.valueError "The lights data has an unknown name"), d' :: rest)

/-- Name check for the confirmed matches and not-matches (solver.py lines
386-390). -/
def checkPairsKnown (names : List String) (l : List (String × String)) : Bool :=
  l.all (fun ab => decide (ab.1 ∈ names) && decide (ab.2 ∈ names))

/-- Name check for the exclusive groups (solver.py lines 391-394). -/
def checkGroupsKnown (names : List String) (groups : List (List String)) : Bool :=
  groups.all (fun g => g.all (fun n => decide (n ∈ names)))

/-- Embedding of `_validate_pairing_inputs` (solver.py lines 368-394),
returning the outcome next to the (possibly in-place updated) weekly
pairings. -/
def _validate_pairing_inputs (names : List String) (weekly_pairings : List Pairing)
    (lights : List Nat) (not_match : List (String × String))
    (match_pairs : List (String × String)) (exclusive_groups : List (List String)) :
    Except PyErr Unit × List Pairing :=
  if weekly_pairings.length ≠ lights.length then
    (.error (.valueError "There must be a number of lights for every week"), weekly_pairings)
  else if names.dedup.length ≠ names.length then
    (.error (.valueError "All names must be unique"), weekly_pairings)
  else
    match weekLoop names weekly_pairings with
    | (.error e, w') => (.error e, w')
    | (.ok (), w') =>
        if !checkPairsKnown names (not_match ++ match_pairs) then
          (.error (.valueError "The confirmed matches or not matches has an unknown name"), w')
        else if !checkGroupsKnown names exclusive_groups then
          (.error (.valueError "The exclusive groups have an unknown name"), w')
        else (.ok (), w')

/-- The include-removal loop of `_get_all_possible_pairings` (solver.py
lines 268-273): for each forced pair `(a, b)`, remove `a` from the working
copy if still present, and remove `b` whenever `b` is in the *original*
list — `list.remove` raising `ValueError` when `b` was already removed. -/
def removeIncluded (people : List String) : List (String × String) → List String →
    Except PyErr (List String)
  | [], clone => .ok clone
  | (a, b) :: rest, clone =>
      let c1 := if a ∈ clone then clone.erase a else clone
      if b ∈ people then
        if b ∈ c1 then removeIncluded people rest (c1.erase b)
        else .error (.valueError "list.remove(x): x not in list")
      else removeIncluded people rest c1

/-- Embedding of `_weed_out_wrong_size` (solver.py lines 311-318). -/
def _weed_out_wrong_size (lst : List Pairing) : List Pairing :=
  if lst.length ≤ 1 then lst
  else
    let size := (lst.map List.length).foldl max 0
    lst.filter (fun s => decide (s.length = size))

/-- The forbidden-pair test of `_get_all_possible_pairings` (solver.py
lines 280-281). -/
def excludedPair (exclude : List (String × String)) (a b : String) : Bool :=
  decide ((a, b) ∈ exclude) || decide ((b, a) ∈ exclude)

/-- The exclusion-group test of `_get_all_possible_pairings` (solver.py
lines 283-284). -/
def inSameGroup (groups : List (List String)) (a b : String) : Bool :=
  groups.any (fun g => decide (a ∈ g) && decide (b ∈ g))

/-- The partner loop of `_get_all_possible_pairings` (solver.py lines
277-300), iterating `i` over the indices of the remaining group; `gap` is
the recursive call at the next level (which Python makes with an empty
`include`). -/
def gapLoop (gap : List String → Except PyErr (List Pairing)) (first : String)
    (rest : List String) (exclude : List (String × String))
    (groups : List (List String)) : List Nat → Except PyErr (List Pairing)
  | [] => .ok []
  | i :: is =>
      let other := rest.getD i ""
      if excludedPair exclude first other || inSameGroup groups first other then
        gapLoop gap first rest exclude groups is
      else
        match gap (rest.eraseIdx i) with
        | .error e => .error e
        | .ok cur =>
            let cur := _weed_out_wrong_size cur
            let cur := cur.map (fun s => setAdd (setAdd s (first, other)) (other, first))
            let cur := if cur.isEmpty then [[(first, other), (other, first)]] else cur
            match gapLoop gap first rest exclude groups is with
            | .error e => .error e
            | .ok tail => .ok (cur ++ tail)

/-- Fueled embedding of `_get_all_possible_pairings` (solver.py lines
242-308); the fuel only bounds the recursion depth, which is at most half
the number of people, so the wrapper below can never exhaust it. -/
def gapFuel : Nat → List String → List (String × String) → List (String × String) →
    List (List String) → Except PyErr (List Pairing)
  | 0, _, _, _, _ => .error .fuelExhausted
  | fuel + 1, people, incl, exclude, groups =>
      if people.isEmpty then .ok []
      else
        match removeIncluded people incl people with
        | .error e => .error e
        | .ok clone =>
            match clone with
            | [] => .error .indexError
            | first :: rest =>
                match gapLoop (fun ps => gapFuel fuel ps [] exclude groups) first rest
                    exclude groups (List.range rest.length) with
                | .error e => .error e
                | .ok pairings =>
                    .ok (pairings.map (fun p =>
                      incl.foldl (fun q ab => setAdd (setAdd q ab) (ab.2, ab.1)) p))

/-- Embedding of `_get_all_possible_pairings` (solver.py lines 242-308). -/
def _get_all_possible_pairings (people : List String) (incl : List (String × String))
    (exclude : List (String × String)) (exclusive_groups : List (List String)) :
    Except PyErr (List Pairing) :=
  gapFuel (people.length + 1) people incl exclude exclusive_groups

/-- The inner weeding loop of `current_possibilities` (solver.py lines
63-68) and of `n_guesses` (lines 169-172): keep the hypotheses consistent
with the observed number of lights, raising `KeyError` where Python
would. -/
def filterCorrect (guess : Pairing) (actually_correct : Nat) :
    List Pairing → Except PyErr (List Pairing)
  | [] => .ok []
  | p :: ps =>
      match _correct_number guess p actually_correct with
      | none => .error .keyError
      | some b =>
          match filterCorrect guess actually_correct ps with
          | .error e => .error e
          | .ok tail => .ok (if b then p :: tail else tail)

/-- The weekly elimination loop of `current_possibilities` (solver.py lines
62-72), indexing `lights[idx]` as the source does. -/
def lightsFilter (lights : List Nat) : Nat → List Pairing → List Pairing →
    Except PyErr (List Pairing)
  | _, [], ds => .ok ds
  | idx, w :: rest, ds =>
      match lights.get? idx with
      | none => .error .indexError
      | some li =>
          match filterCorrect w li ds with
          | .error e => .error e
          | .ok ds' => lightsFilter lights (idx + 1) rest ds'

/-- Embedding of `current_possibilities` (solver.py lines 8-73), returning
the result next to the (possibly in-place updated) weekly pairings. -/
def current_possibilities (names : List String) (weekly_pairings : List Pairing)
    (lights : List Nat) (not_match : List (String × String))
    (match_pairs : List (String × String)) (exclusive_groups : List (List String)) :
    Except PyErr (List Pairing) × List Pairing :=
  match _validate_pairing_inputs names weekly_pairings lights not_match match_pairs
      exclusive_groups with
  | (.error e, w') => (.error e, w')
  | (.ok (), w') =>
      match _get_all_possible_pairings names match_pairs not_match exclusive_groups with
      | .error e => (.error e, w')
      | .ok pairings =>
          let dicts := pairings.map toDict
          (lightsFilter lights 0 w' dicts, w')

/-- The comprehension `[p[a] == b for p in pairings]` of `probability_of`
(solver.py line 90), summed: `none` models the `KeyError` raised when a
hypothesis lacks the key `a`. -/
def countMatches : List Pairing → String → String → Option Nat
  | [], _, _ => some 0
  | p :: ps, a, b =>
      match dictGet p a with
      | none => none
      | some v => (countMatches ps a b).map (fun c => (if v = b then 1 else 0) + c)

/-- Embedding of `probability_of` (solver.py lines 76-90): the sum is
computed first, then divided by `len(pairings)` — a division by zero when
the candidate set is empty. -/
def probability_of (pairings : List Pairing) (a b : String) : Except PyErr Rat :=
  match countMatches pairings a b with
  | none => .error .keyError
  | some c =>
      if pairings.length = 0 then .error .zeroDivisionError
      else .ok ((c : Rat) / (pairings.length : Rat))

/-- One row of the matrix comprehension of `get_probability_matrix`
(solver.py lines 200-204). -/
def matrixRow (pairings : List Pairing) (n1 : String) :
    List String → Except PyErr (List (String × Rat))
  | [] => .ok []
  | n2 :: rest =>
      match probability_of pairings n1 n2 with
      | .error e => .error e
      | .ok q =>
          match matrixRow pairings n1 rest with
          | .error e => .error e
          | .ok t => .ok ((n2, q) :: t)

/-- The outer matrix comprehension of `get_probability_matrix` (solver.py
lines 200-204). -/
def matrixRows (pairings : List Pairing) (names : List String) :
    List String → Except PyErr (List (String × List (String × Rat)))
  | [] => .ok []
  | n1 :: rest =>
      match matrixRow pairings n1 names with
      | .error e => .error e
      | .ok row =>
          match matrixRows pairings names rest with
          | .error e => .error e
          | .ok t => .ok ((n1, row) :: t)

/-- Embedding of `get_probability_matrix` (solver.py lines 189-204). -/
def get_probability_matrix (pairings : List Pairing) :
    Except PyErr (List (String × List (String × Rat))) :=
  if pairings.length = 0 then .error (.valueError "There must be at least one pairing")
  else
    let names := keysOf (pairings.headD [])
    matrixRows pairings names names

/-- Python truthiness of the `sample: Optional[int]` argument in
`if sample:` (solver.py line 123): `None` and `0` are falsy. -/
def sampleTruthy : Option Nat → Bool
  | none => false
  | some 0 => false
  | some (_ + 1) => true

/-- The inner exact sum of `get_optimal_pairing` (solver.py lines 132-135):
the number of candidate truths scoring exactly `k` lights against `p`. -/
def countCorrectK (p : Pairing) (k : Nat) : List Pairing → Option Nat
  | [] => some 0
  | q :: qs =>
      match _correct_number p q k with
      | none => none
      | some b => (countCorrectK p k qs).map (fun c => (if b then 1 else 0) + c)

/-- The exact objective of `get_optimal_pairing` (solver.py lines 132-136):
the sum over the scores `k` of the squared bucket counts. -/
def exactSizeAux (p : Pairing) (pairings : List Pairing) : List Nat → Option Nat
  | [] => some 0
  | k :: ks =>
      match countCorrectK p k pairings with
      | none => none
      | some c => (exactSizeAux p pairings ks).map (fun s => c ^ 2 + s)

/-- Exact-mode `expected_size` for candidate guess `p` (solver.py lines
132-136), `n` being `n_contestants`. -/
def exactSize (p : Pairing) (pairings : List Pairing) (n : Nat) : Option Nat :=
  exactSizeAux p pairings (List.range (n / 2 + 1))

/-- The sampled inner sum of `get_optimal_pairing` (solver.py lines
124-129): `sample` Monte-Carlo draws compared against score `k`, threading
the randomness counter. -/
def sampledInner (p : Pairing) (pairings : List Pairing) (k : Nat) (oracle : Nat → Nat) :
    Nat → Nat → Except PyErr (Nat × Nat)
  | 0, c => .ok (0, c)
  | j + 1, c =>
      let truth := pairings.getD (oracle c % pairings.length) []
      match _correct_number p truth k with
      | none => .error .keyError
      | some b =>
          match sampledInner p pairings k oracle j (c + 1) with
          | .error e => .error e
          | .ok (s, c') => .ok ((if b then 1 else 0) + s, c')

/-- Sampled-mode `expected_size` for candidate guess `p` (solver.py lines
124-130), the outer sum ranging over the scores `ks`. -/
def sampledSize (p : Pairing) (pairings : List Pairing) (oracle : Nat → Nat)
    (sampleN : Nat) : List Nat → Nat → Except PyErr (Nat × Nat)
  | [], c => .ok (0, c)
  | k :: ks, c =>
      match sampledInner p pairings k oracle sampleN c with
      | .error e => .error e
      | .ok (s, c') =>
          match sampledSize p pairings oracle sampleN ks c' with
          | .error e => .error e
          | .ok (t, c'') => .ok (s ^ 2 + t, c'')

/-- The comparison `expected_size < min_lights` where `min_lights` starts
at `float('inf')` (solver.py lines 113 and 137), `none` standing for the
infinity. -/
def ltInf (s : Nat) : Option Nat → Bool
  | none => true
  | some m => decide (s < m)

/-- The candidate loop of `get_optimal_pairing` (solver.py lines 115-139),
threading `min_lights`, `min_pairing` and the randomness counter. -/
def optLoop (pairings : List Pairing) (n : Nat) (sample : Option Nat)
    (oracle : Nat → Nat) :
    List Pairing → Option Nat → Option Pairing → Nat → Except PyErr (Option Pairing)
  | [], _, minP, _ => .ok minP
  | p :: rest, minL, minP, c =>
      match (if sampleTruthy sample then
               sampledSize p pairings oracle (sample.getD 0) (List.range (n / 2 + 1)) c
             else
               match exactSize p pairings n with
               | none => .error .keyError
               | some s => .ok (s, c)) with
      | .error e => .error e
      | .ok (sz, c') =>
          if ltInf sz minL then optLoop pairings n sample oracle rest (some sz) (some p) c'
          else optLoop pairings n sample oracle rest minL minP c'

/-- Embedding of `get_optimal_pairing` (solver.py lines 93-140).  The
returned `Option Pairing` mirrors `min_pairing`, initialized to `None`. -/
def get_optimal_pairing (pairings : List Pairing) (sample : Option Nat)
    (oracle : Nat → Nat) : Except PyErr (Option Pairing) :=
  if pairings.length < 1 then
    .error (.valueError "There must be at least one possible pairing")
  else optLoop pairings (pairings.headD []).length sample oracle pairings none none 0

/-- The objective the spec ascribes to the optimizer, written from the
claim: `m(g, k)` is the number of candidate truths `t` in the Candidate Set
scoring `k` lights against `g`, and the objective is the sum of
`m(g, k)^2` for `k` from `0` to `⌊n / 2⌋`. -/
def optObjective (pairings : List Pairing) (n : Nat) (g : Pairing) : Nat :=
  ((List.range (n / 2 + 1)).map
    (fun k => (pairings.countP (fun t => decide (_get_lights g t = some k))) ^ 2)).sum

/-- The pure content of the candidate loop in exact mode: scan the list,
keeping the first strict improvement of the objective. -/
def runMinF (f : Pairing → Nat) : List Pairing → Pairing → Pairing
  | [], g => g
  | p :: rest, g => if f p < f g then runMinF f rest p else runMinF f rest g

/-- Fueled embedding of the `while` loop of `_generate_random_pairing`
(solver.py lines 325-332): pop two random participants and record them as
partners; popping from an empty list (the second pop when one participant
is left) is Python's `IndexError`.  The fuel only bounds the number of
iterations, at most half the list length plus one. -/
def genRandomFuel (oracle : Nat → Nat) :
    Nat → List String → Pairing → Nat → Except PyErr (Pairing × Nat)
  | 0, _, _, _ => .error .fuelExhausted
  | fuel + 1, people, pairs, c =>
      if people.isEmpty then .ok (pairs, c)
      else
        let ia := oracle c % people.length
        let a := people.getD ia ""
        let people1 := people.eraseIdx ia
        if people1.isEmpty then .error .indexError
        else
          let ib := oracle (c + 1) % people1.length
          let b := people1.getD ib ""
          let people2 := people1.eraseIdx ib
          genRandomFuel oracle fuel people2 (dictSet (dictSet pairs a b) b a) (c + 2)

/-- Embedding of `_generate_random_pairing` (solver.py lines 321-332),
threading the randomness counter. -/
def _generate_random_pairing (names : List String) (oracle : Nat → Nat) (c : Nat) :
    Except PyErr (Pairing × Nat) :=
  genRandomFuel oracle (names.length + 1) names [] c

/-- Fueled embedding of the guessing loop of `n_guesses` (solver.py lines
160-177): pick a random surviving candidate, enforce its symmetry (a
mutation of the dict inside the list, modeled by `List.set`), score it
against the truth, and weed the candidate set; after the loop Python
indexes `possibilities_dicts[0]` (line 178), an `IndexError` when the set
is empty. -/
def guessLoopFuel (oracle : Nat → Nat) (truth : Pairing) :
    Nat → List Pairing → Nat → Nat → Except PyErr Nat
  | 0, _, _, _ => .error .fuelExhausted
  | fuel + 1, poss, c, guesses =>
      if poss.length ≤ 1 then
        match poss with
        | [] => .error .indexError
        | _ :: _ => .ok guesses
      else
        let gi := oracle c % poss.length
        let guess := poss.getD gi []
        match _enforce_symmetric_pairing guess with
        | (.error e, _) => .error e
        | (.ok (), guess') =>
            let poss' := poss.set gi guess'
            match _get_lights guess' truth with
            | none => .error .keyError
            | some li =>
                match filterCorrect guess' li poss' with
                | .error e => .error e
                | .ok weeded => guessLoopFuel oracle truth fuel weeded (c + 1) (guesses + 1)

/-- Embedding of `n_guesses` (solver.py lines 143-179): names are
`str(i)`, the truth is a random pairing (enforced symmetric), the
candidate set is the full unconstrained enumeration, and the loop counts
guesses until at most one candidate survives. -/
def n_guesses (contestants : Nat) (oracle : Nat → Nat) : Except PyErr Nat :=
  let names := (List.range contestants).map (fun i => toString i)
  match _generate_random_pairing names oracle 0 with
  | .error e => .error e
  | .ok (truth, c) =>
      match _enforce_symmetric_pairing truth with
      | (.error e, _) => .error e
      | (.ok (), truth') =>
          match _get_all_possible_pairings names [] [] [] with
          | .error e => .error e
          | .ok possibilities =>
              let dicts := possibilities.map toDict
              guessLoopFuel oracle truth' (dicts.length + 1) dicts c 0

/-- Extensional equality of two embedded dicts: the same lookup result on
every key. -/
def EqOn (d e : Pairing) : Prop := ∀ a : String, dictGet d a = dictGet e a

/-- A dict representing a perfect matching over `names`: duplicate-free
keys covering exactly `names`, containing the reverse of each entry, with
no fixed points. -/
def IsPM (names : List String) (d : Pairing) : Prop :=
  (keysOf d).Nodup ∧ (∀ a, a ∈ keysOf d ↔ a ∈ names) ∧
    (∀ p ∈ d, (p.2, p.1) ∈ d) ∧ (∀ p ∈ d, p.1 ≠ p.2)

/-- Keys of a dict with no duplicate keys look themselves up. -/
theorem dictGet_of_nodup_mem {d : Pairing} (hnd : (keysOf d).Nodup)
    {p v : String} (hmem : (p, v) ∈ d) : dictGet d p = some v := by
  induction d with
  | nil => cases hmem
  | cons hd tl ih =>
      obtain ⟨a, b⟩ := hd
      simp only [keysOf, List.map_cons, List.nodup_cons] at hnd
      rcases List.mem_cons.mp hmem with heq | htl
      · cases heq
        simp [dictGet]
      · have hne : a ≠ p := by
          intro h
          exact hnd.1 (h ▸ (List.mem_map.mpr ⟨(p, v), htl, rfl⟩))
        simp only [dictGet, if_neg hne]
        exact ih hnd.2 htl

/-- If every entry of `l` agrees with its lookup in `d`, the count of
correct entries is the length of `l`. -/
theorem countCorrect_all_correct {d : Pairing} :
    ∀ {l : Pairing}, (∀ p ∈ l, dictGet d p.1 = some p.2) →
      countCorrect l d = some l.length := by
  intro l
  induction l with
  | nil => intro _; rfl
  | cons hd tl ih =>
      intro h
      obtain ⟨p, v⟩ := hd
      have hhd : dictGet d p = some v := h (p, v) (List.mem_cons_self _ _)
      have htl := ih (fun q hq => h q (List.mem_cons_of_mem _ hq))
      simp [countCorrect, hhd, htl, Nat.add_comm]

/-- C8: for every symmetric Matching `guess` with pairwise distinct keys
(the invariant of every Python dict of pairings), `_get_lights guess guess`
returns exactly `n / 2` where `n` is the number of participants (= keys) —
a guess compared to itself scores the maximum number of lights. -/
theorem c8_self_feedback_max (guess : Pairing)
    (hnd : (keysOf guess).Nodup)
    (_hsym : ∀ p ∈ guess, (p.2, p.1) ∈ guess) :
    _get_lights guess guess = some (guess.length / 2) := by
  have h : ∀ p ∈ guess, dictGet guess p.1 = some p.2 := by
    intro p hp
    exact dictGet_of_nodup_mem hnd (by cases p; exact hp)
  simp [_get_lights, countCorrect_all_correct h]

/-- Witness for C8 at the concrete two-participant matching A↔B. -/
theorem c8_self_feedback_max_witness :
    _get_lights [("A", "B"), ("B", "A")] [("A", "B"), ("B", "A")] = some 1 :=
  c8_self_feedback_max [("A", "B"), ("B", "A")] (by decide) (by decide)

/-- C1: refuted on the code.  With participants A, B, C, D and the single
forbidden pair (C, D), the enumeration succeeds and its first returned
"Matching" is {A↦B, B↦A}, which omits C and D entirely: the recursive
branch for the choice A-B finds no completion over {C, D}, and the
compensation at solver.py lines 297-299 inserts the bare pair while no
final `_weed_out_wrong_size` pass runs at the top level (line 308). -/
theorem c1_partial_matching_returned :
    (current_possibilities ["A", "B", "C", "D"] [] [] [("C", "D")] [] []).1 =
      .ok [[("A", "B"), ("B", "A")],
           [("B", "D"), ("D", "B"), ("A", "C"), ("C", "A")],
           [("B", "C"), ("C", "B"), ("A", "D"), ("D", "A")]] ∧
    ∃ p ∈ [[("A", "B"), ("B", "A")],
           [("B", "D"), ("D", "B"), ("A", "C"), ("C", "A")],
           [("B", "C"), ("C", "B"), ("A", "D"), ("D", "A")]],
      dictGet p "C" = none ∧ dictGet p "D" = none :=
  ⟨rfl, by decide⟩

/-- C2: refuted on the code.  With the odd participant list A, B, C the
enumeration does not fail; it returns two "Matchings" each of which silently
omits one participant (B or C respectively). -/
theorem c2_odd_count_silent_drop :
    _get_all_possible_pairings ["A", "B", "C"] [] [] [] =
      .ok [[("A", "B"), ("B", "A")], [("A", "C"), ("C", "A")]] ∧
    ∀ p ∈ [[("A", "B"), ("B", "A")], [("A", "C"), ("C", "A")]],
      ∃ nm ∈ ["A", "B", "C"], dictGet p nm = none :=
  ⟨rfl, by decide⟩

/-- C6: refuted on the code.  A forced pair (A, B) that is simultaneously
forbidden — or that spans an exclusion group — raises no error at all: the
forced pair is stripped before the forbidden/exclusion tests run and re-added
afterwards, so the output contains the conflicting pair.  A participant in
two forced pairs does not raise a `ConstraintConflictError` either; in the
embedded insertion order it surfaces as the raw `ValueError` of
`list.remove` at solver.py line 273. -/
theorem c6_no_constraint_conflict_check :
    (current_possibilities ["A", "B", "C", "D"] [] [] [("A", "B")] [("A", "B")] []).1 =
      .ok [[("C", "D"), ("D", "C"), ("A", "B"), ("B", "A")]] ∧
    (current_possibilities ["A", "B", "C", "D"] [] [] [] [("A", "B")] [["A", "B"]]).1 =
      .ok [[("C", "D"), ("D", "C"), ("A", "B"), ("B", "A")]] ∧
    (current_possibilities ["A", "B", "C", "D"] [] [] [] [("A", "B"), ("C", "B")] []).1 =
      .error (.valueError "list.remove(x): x not in list") :=
  ⟨rfl, rfl, rfl⟩

/-- C7, counterexample: applied to an empty participant list the generator
returns the empty list of Matchings, not the one-element list holding the
empty Matching the claim describes. -/
theorem c7_empty_input_counterexample :
    _get_all_possible_pairings [] [] [] [] = .ok [] ∧
    _get_all_possible_pairings [] [] [] [] ≠ .ok [[]] := by
  refine ⟨rfl, fun h => ?_⟩
  exact absurd (Except.ok.inj h) (by decide)

/-- C7, amended: an empty participant list yields the empty list of
Matchings (solver.py lines 263-264); the base case contributing the final
pair is instead the compensation at lines 297-299 in the caller. -/
theorem c7_empty_input_returns_no_matchings
    (incl exclude : List (String × String)) (exclusive_groups : List (List String)) :
    _get_all_possible_pairings [] incl exclude exclusive_groups = .ok [] := rfl

/-- Membership after a dict assignment comes from the old dict or is the
new entry. -/
theorem mem_dictSet {d : Pairing} {k v : String} {x : String × String}
    (h : x ∈ dictSet d k v) : x ∈ d ∨ x = (k, v) := by
  induction d with
  | nil =>
      simp only [dictSet, List.mem_singleton] at h
      exact Or.inr h
  | cons hd tl ih =>
      obtain ⟨a, b⟩ := hd
      by_cases hak : a = k
      · simp only [dictSet, if_pos hak, List.mem_cons] at h
        rcases h with h | h
        · exact Or.inr h
        · exact Or.inl (List.mem_cons_of_mem _ h)
      · simp only [dictSet, if_neg hak, List.mem_cons] at h
        rcases h with h | h
        · exact Or.inl (List.mem_cons.mpr (Or.inl h))
        · rcases ih h with h' | h'
          · exact Or.inl (List.mem_cons_of_mem _ h')
          · exact Or.inr h'

/-- A successful lookup exhibits an entry of the dict. -/
theorem dictGet_mem : ∀ {d : Pairing} {k v : String}, dictGet d k = some v → (k, v) ∈ d := by
  intro d
  induction d with
  | nil => intro k v h; cases h
  | cons hd tl ih =>
      intro k v h
      obtain ⟨a, b⟩ := hd
      by_cases hak : a = k
      · simp only [dictGet, if_pos hak] at h
        cases h
        exact hak ▸ List.mem_cons_self _ _
      · simp only [dictGet, if_neg hak] at h
        exact List.mem_cons_of_mem _ (ih h)

/-- Overwriting a key with the value it already has leaves the dict
unchanged. -/
theorem dictSet_of_dictGet : ∀ {d : Pairing} {a b : String},
    dictGet d a = some b → dictSet d a b = d := by
  intro d
  induction d with
  | nil => intro a b h; cases h
  | cons hd tl ih =>
      intro a b h
      obtain ⟨x, y⟩ := hd
      by_cases hxa : x = a
      · simp only [dictGet, if_pos hxa] at h
        cases h
        simp [dictSet, hxa]
      · simp only [dictGet, if_neg hxa] at h
        simp [dictSet, hxa, ih h]

/-- On a dict with duplicate-free keys containing the reverse of each of
its entries, the first loop of `_enforce_symmetric_pairing` raises
nothing. -/
theorem symCheckLoop_ok {d : Pairing} (hnd : (keysOf d).Nodup)
    (hsym : ∀ p ∈ d, (p.2, p.1) ∈ d) :
    ∀ (l check : Pairing), (∀ kv ∈ l, kv ∈ d) → (∀ kv ∈ check, kv ∈ d) →
      symCheckLoop d l check = .ok () := by
  intro l
  induction l with
  | nil => intro check _ _; rfl
  | cons hd tl ih =>
      intro check hl hc
      obtain ⟨p, v⟩ := hd
      have hcond : (check.all fun kv =>
          if kv.2 = p then decide (dictGet d p = some kv.1) else true) = true := by
        rw [List.all_eq_true]
        intro kv hkv
        by_cases h2 : kv.2 = p
        · have hmem : (kv.1, p) ∈ d := by
            have := hc kv hkv
            rwa [show kv = (kv.1, p) from by rw [← h2]] at this
          have hrev : (p, kv.1) ∈ d := hsym (kv.1, p) hmem
          have := dictGet_of_nodup_mem hnd hrev
          simp [h2, this]
        · simp [h2]
      rw [symCheckLoop, hcond]
      simp only [if_true]
      refine ih (dictSet check p v) (fun kv hkv => hl kv (List.mem_cons_of_mem _ hkv))
        (fun kv hkv => ?_)
      rcases mem_dictSet hkv with h | h
      · exact hc kv h
      · exact h ▸ hl (p, v) (List.mem_cons_self _ _)

/-- On a symmetric dict with duplicate-free keys, the reverse-adding loop of
`_enforce_symmetric_pairing` changes nothing. -/
theorem addReverseLoop_id {d : Pairing} (hnd : (keysOf d).Nodup)
    (hsym : ∀ p ∈ d, (p.2, p.1) ∈ d) :
    ∀ ks : List String, addReverseLoop ks d = d := by
  intro ks
  induction ks with
  | nil => rfl
  | cons k rest ih =>
      rw [addReverseLoop]
      cases hkv : dictGet d k with
      | none => exact ih
      | some v =>
          have hmem : (k, v) ∈ d := dictGet_mem hkv
          have hrev : (v, k) ∈ d := hsym (k, v) hmem
          have hget : dictGet d v = some k := dictGet_of_nodup_mem hnd hrev
          show addReverseLoop rest (dictSet d v k) = d
          rw [dictSet_of_dictGet hget]
          exact ih

/-- On a symmetric dict, the key set equals the value set. -/
theorem sameKeyValSets_of_sym {d : Pairing}
    (hsym : ∀ p ∈ d, (p.2, p.1) ∈ d) : sameKeyValSets d = true := by
  simp only [sameKeyValSets, Bool.and_eq_true, List.all_eq_true, decide_eq_true_eq]
  constructor
  · intro k hk
    obtain ⟨p, hp, hpk⟩ := List.mem_map.mp hk
    exact List.mem_map.mpr ⟨(p.2, p.1), hsym p hp, hpk⟩
  · intro v hv
    obtain ⟨p, hp, hpv⟩ := List.mem_map.mp hv
    exact List.mem_map.mpr ⟨(p.2, p.1), hsym p hp, hpv⟩

/-- A weekly dict that is already symmetric (it contains the reverse of
each of its entries) with duplicate-free keys passes
`_enforce_symmetric_pairing` unchanged. -/
theorem enforce_symmetric_id {d : Pairing} (hnd : (keysOf d).Nodup)
    (hsym : ∀ p ∈ d, (p.2, p.1) ∈ d) :
    _enforce_symmetric_pairing d = (.ok (), d) := by
  rw [_enforce_symmetric_pairing, symCheckLoop_ok hnd hsym d [] (fun _ h => h) (fun _ h => nomatch h)]
  simp only [addReverseLoop_id hnd hsym, sameKeyValSets_of_sym hsym, if_true]

/-- Symmetric weekly dicts pass the validation week loop unchanged. -/
theorem weekLoop_snd (names : List String) :
    ∀ weekly : List Pairing,
      (∀ d ∈ weekly, (keysOf d).Nodup ∧ ∀ p ∈ d, (p.2, p.1) ∈ d) →
      (weekLoop names weekly).2 = weekly := by
  intro weekly
  induction weekly with
  | nil => intro _; rfl
  | cons d rest ih =>
      intro h
      have hd := h d (List.mem_cons_self _ _)
      rw [weekLoop, enforce_symmetric_id hd.1 hd.2]
      by_cases hc : checkWeekNames names d = true
      · have hrest := ih (fun q hq => h q (List.mem_cons_of_mem _ hq))
        simp only [hc, if_true]
        cases hw : weekLoop names rest with
        | mk r rest' =>
            rw [hw] at hrest
            simpa using hrest
      · simp [hc]

/-- Validation returns the weekly pairings unchanged when every weekly dict
is already symmetric. -/
theorem validate_snd (names : List String) (weekly : List Pairing) (lights : List Nat)
    (not_match match_pairs : List (String × String)) (groups : List (List String))
    (h : ∀ d ∈ weekly, (keysOf d).Nodup ∧ ∀ p ∈ d, (p.2, p.1) ∈ d) :
    (_validate_pairing_inputs names weekly lights not_match match_pairs groups).2 =
      weekly := by
  rw [_validate_pairing_inputs]
  by_cases h1 : weekly.length ≠ lights.length
  · simp [h1]
  · simp only [h1, if_false]
    by_cases h2 : names.dedup.length ≠ names.length
    · simp [h2]
    · simp only [h2, if_false]
      have hw := weekLoop_snd names weekly h
      split
      next e w' heq =>
        rw [heq] at hw
        exact hw
      next u w' heq =>
        rw [heq] at hw
        simp only at hw
        subst hw
        split
        · rfl
        · split <;> rfl

/-- C9, counterexample: `current_possibilities` does modify the
`weekly_pairings` dictionaries passed to it — a week given in only one
direction, {A↦B}, is extended in place to {A↦B, B↦A} by
`_enforce_symmetric_pairing` during validation. -/
theorem c9_weekly_pairings_mutated :
    current_possibilities ["A", "B"] [[("A", "B")]] [1] [] [] [] =
      (.ok [[("A", "B"), ("B", "A")]], [[("A", "B"), ("B", "A")]]) ∧
    [[("A", "B"), ("B", "A")]] ≠ [[("A", "B")]] :=
  ⟨rfl, by decide⟩

/-- C9, amended: `current_possibilities` modifies the `weekly_pairings`
dictionaries passed to it whenever a week records a pair in only one
direction — `_enforce_symmetric_pairing` inserts the reverse entry in
place.  When every weekly dict is already symmetric (contains the reverse
of each of its entries, keys duplicate-free), the inputs are returned
unchanged and only newly constructed outputs are produced. -/
theorem c9_symmetric_weeks_unchanged (names : List String) (weekly : List Pairing)
    (lights : List Nat) (not_match match_pairs : List (String × String))
    (exclusive_groups : List (List String))
    (h : ∀ d ∈ weekly, (keysOf d).Nodup ∧ ∀ p ∈ d, (p.2, p.1) ∈ d) :
    (current_possibilities names weekly lights not_match match_pairs
      exclusive_groups).2 = weekly := by
  have hv := validate_snd names weekly lights not_match match_pairs exclusive_groups h
  rw [current_possibilities]
  split
  next e w' heq =>
    rw [heq] at hv
    exact hv
  next u w' heq =>
    rw [heq] at hv
    simp only at hv
    subst hv
    split
    · rfl
    · rfl

/-- Witness for C9's amended statement at a concrete symmetric week. -/
theorem c9_symmetric_weeks_unchanged_witness :
    (current_possibilities ["A", "B"] [[("A", "B"), ("B", "A")]] [1] [] [] []).2 =
      [[("A", "B"), ("B", "A")]] :=
  c9_symmetric_weeks_unchanged ["A", "B"] [[("A", "B"), ("B", "A")]] [1] [] [] []
    (by decide)

/-- C3: refuted on the code for `probability_of`.  On the empty Candidate
Set, `get_probability_matrix` does fail with its explicit, named error, but
`probability_of` reaches `sum(...) / len(pairings)` with `len = 0` and dies
with a raw `ZeroDivisionError` instead of a named error. -/
theorem c3_empty_candidate_set_errors :
    probability_of [] "A" "B" = .error .zeroDivisionError ∧
    get_probability_matrix [] = .error (.valueError "There must be at least one pairing") :=
  ⟨rfl, rfl⟩

/-- With `sample = 0` (falsy in Python) the candidate loop runs exactly as
with `sample = None`. -/
theorem optLoop_sample_zero (pairings : List Pairing) (n : Nat) (oracle : Nat → Nat) :
    ∀ (l : List Pairing) (minL : Option Nat) (minP : Option Pairing) (c : Nat),
      optLoop pairings n (some 0) oracle l minL minP c =
        optLoop pairings n none oracle l minL minP c := by
  intro l
  induction l with
  | nil => intro _ _ _; rfl
  | cons p rest ih =>
      intro minL minP c
      rw [optLoop, optLoop]
      simp only [sampleTruthy, Bool.false_eq_true, if_false]
      cases h : exactSize p pairings n with
      | none => rfl
      | some s =>
          simp only
          by_cases hlt : ltInf s minL = true
          · simp only [hlt, if_true, ih]
          · simp only [hlt, if_false, ih]

/-- When every lights evaluation against the candidate set succeeds, the
inner exact sum counts exactly the candidates scoring `k`. -/
theorem countCorrectK_eq (p : Pairing) (k : Nat) :
    ∀ l : List Pairing, (∀ q ∈ l, (_get_lights p q).isSome) →
      countCorrectK p k l =
        some (l.countP (fun t => decide (_get_lights p t = some k))) := by
  intro l
  induction l with
  | nil => intro _; rfl
  | cons q qs ih =>
      intro h
      obtain ⟨lq, hlq⟩ := Option.isSome_iff_exists.mp (h q (List.mem_cons_self _ _))
      have htl := ih (fun t ht => h t (List.mem_cons_of_mem _ ht))
      rw [countCorrectK, _correct_number, hlq]
      simp only [Option.map_some', htl, List.countP_cons, hlq, Option.some.injEq,
        decide_eq_true_eq]
      by_cases hk : lq = k
      · simp [hk, Nat.add_comm]
      · simp [hk]

/-- When every lights evaluation succeeds, the exact `expected_size` of a
candidate guess is the spec's objective. -/
theorem exactSize_eq (p : Pairing) (pairings : List Pairing) (n : Nat)
    (h : ∀ q ∈ pairings, (_get_lights p q).isSome) :
    exactSize p pairings n = some (optObjective pairings n p) := by
  rw [exactSize, optObjective]
  generalize List.range (n / 2 + 1) = ks
  induction ks with
  | nil => rfl
  | cons k ks ih =>
      rw [exactSizeAux, countCorrectK_eq p k pairings h]
      simp only [List.map_cons, List.sum_cons, ih, Option.map_some']

/-- The exact-mode candidate loop computes `runMinF` of the objective. -/
theorem optLoop_exact_eq (pairings : List Pairing) (n : Nat) (oracle : Nat → Nat) :
    ∀ (l : List Pairing) (g : Pairing) (c : Nat),
      (∀ p ∈ l, exactSize p pairings n = some (optObjective pairings n p)) →
      optLoop pairings n none oracle l (some (optObjective pairings n g)) (some g) c =
        .ok (some (runMinF (optObjective pairings n) l g)) := by
  intro l
  induction l with
  | nil => intro _ _ _; rfl
  | cons p rest ih =>
      intro g c h
      rw [optLoop]
      simp only [sampleTruthy, Bool.false_eq_true, if_false,
        h p (List.mem_cons_self _ _)]
      have htl := fun q hq => h q (List.mem_cons_of_mem _ hq)
      rw [runMinF]
      by_cases hlt : optObjective pairings n p < optObjective pairings n g
      · simp only [ltInf, hlt, decide_eq_true_eq, if_true, decide_eq_true hlt]
        exact ih p c htl
      · simp only [ltInf, hlt, if_false, decide_eq_false hlt, Bool.false_eq_true]
        exact ih g c htl

/-- The result of `runMinF` scores no worse than the seed. -/
theorem runMinF_le_init (f : Pairing → Nat) :
    ∀ (l : List Pairing) (g : Pairing), f (runMinF f l g) ≤ f g := by
  intro l
  induction l with
  | nil => intro g; exact Nat.le_refl _
  | cons p rest ih =>
      intro g
      rw [runMinF]
      by_cases hlt : f p < f g
      · simp only [hlt, if_true]
        exact Nat.le_trans (ih p) (Nat.le_of_lt hlt)
      · simp only [hlt, if_false]
        exact ih g

/-- The result of `runMinF` scores no worse than any scanned candidate. -/
theorem runMinF_le_mem (f : Pairing → Nat) :
    ∀ (l : List Pairing) (g t : Pairing), t ∈ l → f (runMinF f l g) ≤ f t := by
  intro l
  induction l with
  | nil => intro g t ht; cases ht
  | cons p rest ih =>
      intro g t ht
      rw [runMinF]
      rcases List.mem_cons.mp ht with h | h
      · subst h
        by_cases hlt : f t < f g
        · simp only [hlt, if_true]
          exact runMinF_le_init f rest t
        · simp only [hlt, if_false]
          exact Nat.le_trans (runMinF_le_init f rest g) (Nat.le_of_not_lt hlt)
      · by_cases hlt : f p < f g
        · simp only [hlt, if_true]
          exact ih p t h
        · simp only [hlt, if_false]
          exact ih g t h

/-- Either `runMinF` keeps its seed, or it returns the first scanned
candidate realizing a strict improvement over everything before it. -/
theorem runMinF_first (f : Pairing → Nat) :
    ∀ (l : List Pairing) (g : Pairing),
      runMinF f l g = g ∨
      ∃ l₁ l₂, l = l₁ ++ runMinF f l g :: l₂ ∧ f (runMinF f l g) < f g ∧
        ∀ t ∈ l₁, f (runMinF f l g) < f t := by
  intro l
  induction l with
  | nil => intro g; exact Or.inl rfl
  | cons p rest ih =>
      intro g
      rw [runMinF]
      by_cases hlt : f p < f g
      · simp only [hlt, if_true]
        rcases ih p with h | ⟨l₁, l₂, hsplit, hstrict, hall⟩
        · refine Or.inr ⟨[], rest, ?_, ?_, ?_⟩
          · simp [h]
          · rw [h]; exact hlt
          · intro t ht; cases ht
        · refine Or.inr ⟨p :: l₁, l₂, ?_, ?_, ?_⟩
          · rw [List.cons_append, ← hsplit]
          · exact Nat.lt_trans hstrict hlt
          · intro t ht
            rcases List.mem_cons.mp ht with h' | h'
            · subst h'; exact hstrict
            · exact hall t h'
      · simp only [hlt, if_false]
        rcases ih g with h | ⟨l₁, l₂, hsplit, hstrict, hall⟩
        · exact Or.inl h
        · refine Or.inr ⟨p :: l₁, l₂, ?_, ?_, ?_⟩
          · rw [List.cons_append, ← hsplit]
          · exact hstrict
          · intro t ht
            rcases List.mem_cons.mp ht with h' | h'
            · subst h'
              exact Nat.lt_of_lt_of_le hstrict (Nat.le_of_not_lt hlt)
            · exact hall t h'

/-- C4: in exact mode (`sample = None`), on a non-empty Candidate Set whose
lights evaluations all succeed (as they do for dicts over a common
participant set), `get_optimal_pairing` returns the member `g` minimizing
`sum_k m(g, k)^2` for `k` from `0` to `⌊n/2⌋` — where `m(g, k)` counts the
candidates scoring `k` lights against `g` and `n = len(pairings[0])` — and
among minimizers it returns the first in iteration order (everything
earlier scores strictly worse). -/
theorem c4_optimal_pairing_exact_argmin (pairings : List Pairing) (oracle : Nat → Nat)
    (hne : pairings ≠ [])
    (htot : ∀ p ∈ pairings, ∀ q ∈ pairings, (_get_lights p q).isSome) :
    ∃ g l₁ l₂,
      pairings = l₁ ++ g :: l₂ ∧
      get_optimal_pairing pairings none oracle = .ok (some g) ∧
      (∀ t ∈ pairings, optObjective pairings (pairings.headD []).length g ≤
        optObjective pairings (pairings.headD []).length t) ∧
      (∀ t ∈ l₁, optObjective pairings (pairings.headD []).length g <
        optObjective pairings (pairings.headD []).length t) := by
  cases pairings with
  | nil => exact absurd rfl hne
  | cons p rest =>
      have hexact : ∀ q ∈ p :: rest,
          exactSize q (p :: rest) ((p :: rest).headD []).length =
            some (optObjective (p :: rest) ((p :: rest).headD []).length q) :=
        fun q hq => exactSize_eq q (p :: rest) _ (htot q hq)
      have hrun : get_optimal_pairing (p :: rest) none oracle =
          .ok (some (runMinF (optObjective (p :: rest) ((p :: rest).headD []).length)
            rest p)) := by
        rw [get_optimal_pairing]
        simp only [List.length_cons, Nat.not_lt_zero, Nat.lt_irrefl,
          Nat.not_lt.mpr (Nat.succ_le_succ (Nat.zero_le _)), if_false]
        rw [optLoop]
        simp only [sampleTruthy, Bool.false_eq_true, if_false,
          hexact p (List.mem_cons_self _ _)]
        simp only [ltInf, if_true]
        exact optLoop_exact_eq (p :: rest) _ oracle rest p 0
          (fun q hq => hexact q (List.mem_cons_of_mem _ hq))
      set f := optObjective (p :: rest) ((p :: rest).headD []).length with hf
      rcases runMinF_first f rest p with hkeep | ⟨l₁, l₂, hsplit, hstrict, hall⟩
      · refine ⟨p, [], rest, rfl, ?_, ?_, ?_⟩
        · rw [hrun, hkeep]
        · intro t ht
          rcases List.mem_cons.mp ht with h | h
          · subst h; exact Nat.le_refl _
          · have := runMinF_le_mem f rest p t h
            rwa [hkeep] at this
        · intro t ht; cases ht
      · refine ⟨runMinF f rest p, p :: l₁, l₂, ?_, hrun, ?_, ?_⟩
        · rw [List.cons_append, ← hsplit]
        · intro t ht
          rcases List.mem_cons.mp ht with h | h
          · subst h; exact Nat.le_of_lt hstrict
          · exact runMinF_le_mem f rest p t h
        · intro t ht
          rcases List.mem_cons.mp ht with h | h
          · subst h; exact hstrict
          · exact hall t h

/-- Witness for C4 at the three-matching Candidate Set over A, B, C, D. -/
theorem c4_optimal_pairing_exact_argmin_witness :
    ∃ g l₁ l₂,
      [[("C", "D"), ("D", "C"), ("A", "B"), ("B", "A")],
       [("B", "D"), ("D", "B"), ("A", "C"), ("C", "A")],
       [("B", "C"), ("C", "B"), ("A", "D"), ("D", "A")]] = l₁ ++ g :: l₂ ∧
      get_optimal_pairing
        [[("C", "D"), ("D", "C"), ("A", "B"), ("B", "A")],
         [("B", "D"), ("D", "B"), ("A", "C"), ("C", "A")],
         [("B", "C"), ("C", "B"), ("A", "D"), ("D", "A")]] none (fun _ => 0) =
        .ok (some g) ∧
      (∀ t ∈ [[("C", "D"), ("D", "C"), ("A", "B"), ("B", "A")],
              [("B", "D"), ("D", "B"), ("A", "C"), ("C", "A")],
              [("B", "C"), ("C", "B"), ("A", "D"), ("D", "A")]],
        optObjective
          [[("C", "D"), ("D", "C"), ("A", "B"), ("B", "A")],
           [("B", "D"), ("D", "B"), ("A", "C"), ("C", "A")],
           [("B", "C"), ("C", "B"), ("A", "D"), ("D", "A")]] 4 g ≤
        optObjective
          [[("C", "D"), ("D", "C"), ("A", "B"), ("B", "A")],
           [("B", "D"), ("D", "B"), ("A", "C"), ("C", "A")],
           [("B", "C"), ("C", "B"), ("A", "D"), ("D", "A")]] 4 t) ∧
      (∀ t ∈ l₁,
        optObjective
          [[("C", "D"), ("D", "C"), ("A", "B"), ("B", "A")],
           [("B", "D"), ("D", "B"), ("A", "C"), ("C", "A")],
           [("B", "C"), ("C", "B"), ("A", "D"), ("D", "A")]] 4 g <
        optObjective
          [[("C", "D"), ("D", "C"), ("A", "B"), ("B", "A")],
           [("B", "D"), ("D", "B"), ("A", "C"), ("C", "A")],
           [("B", "C"), ("C", "B"), ("A", "D"), ("D", "A")]] 4 t) :=
  c4_optimal_pairing_exact_argmin
    [[("C", "D"), ("D", "C"), ("A", "B"), ("B", "A")],
     [("B", "D"), ("D", "B"), ("A", "C"), ("C", "A")],
     [("B", "C"), ("C", "B"), ("A", "D"), ("D", "A")]] (fun _ => 0)
    (by decide) (by decide)

/-- C10: calling `get_optimal_pairing` with `sample = 0` takes the exact
branch (Python's `if sample:` is false for `0`), so it computes the full
exact objective and returns the same result as `sample = None`. -/
theorem c10_sample_zero_is_exact (pairings : List Pairing) (oracle : Nat → Nat) :
    get_optimal_pairing pairings (some 0) oracle =
      get_optimal_pairing pairings none oracle := by
  rw [get_optimal_pairing, get_optimal_pairing]
  by_cases h : pairings.length < 1
  · simp [h]
  · simp only [h, if_false]
    exact optLoop_sample_zero pairings (pairings.headD []).length oracle pairings none none 0

/-- A list of nonzero length is not empty. -/
theorem isEmpty_false_of_ne_zero {α : Type} {l : List α} (h : l.length ≠ 0) :
    l.isEmpty = false := by
  cases l with
  | nil => simp at h
  | cons a t => rfl

/-- A list of zero length is empty. -/
theorem isEmpty_true_of_eq_zero {α : Type} {l : List α} (h : l.length = 0) :
    l.isEmpty = true := by
  cases l with
  | nil => rfl
  | cons a t => simp at h

/-- On an odd number of remaining participants, the pairing loop of
`_generate_random_pairing` always ends popping from an empty list: an
`IndexError`, whatever the randomness. -/
theorem genRandomFuel_odd (oracle : Nat → Nat) :
    ∀ (fuel : Nat) (people : List String) (pairs : Pairing) (c : Nat),
      people.length % 2 = 1 → people.length < 2 * fuel →
      genRandomFuel oracle fuel people pairs c = .error .indexError := by
  intro fuel
  induction fuel with
  | zero => intro people pairs c _ hlt; omega
  | succ f ih =>
      intro people pairs c hodd hlt
      have hne : people.length ≠ 0 := by omega
      have hpos : 0 < people.length := Nat.pos_of_ne_zero hne
      rw [genRandomFuel]
      simp only [isEmpty_false_of_ne_zero hne, Bool.false_eq_true, if_false]
      have hia : oracle c % people.length < people.length := Nat.mod_lt _ hpos
      have hlen1 : (people.eraseIdx (oracle c % people.length)).length =
          people.length - 1 := by
        rw [List.length_eraseIdx]
        simp [hia]
      by_cases h1 : people.length = 1
      · have : (people.eraseIdx (oracle c % people.length)).isEmpty = true :=
          isEmpty_true_of_eq_zero (by omega)
        simp [this]
      · have hne1 : (people.eraseIdx (oracle c % people.length)).length ≠ 0 := by omega
        simp only [isEmpty_false_of_ne_zero hne1, Bool.false_eq_true, if_false]
        have hib : oracle (c + 1) % (people.eraseIdx (oracle c % people.length)).length <
            (people.eraseIdx (oracle c % people.length)).length :=
          Nat.mod_lt _ (Nat.pos_of_ne_zero hne1)
        have hlen2 : ((people.eraseIdx (oracle c % people.length)).eraseIdx
            (oracle (c + 1) % (people.eraseIdx (oracle c % people.length)).length)).length =
            people.length - 2 := by
          rw [List.length_eraseIdx]
          simp only [hib, if_true]
          omega
        apply ih
        · rw [hlen2]; omega
        · rw [hlen2]; omega

/-- For an odd contestant count, `n_guesses` dies with the `IndexError` of
`_generate_random_pairing` for every randomness source. -/
theorem n_guesses_odd_fails (contestants : Nat) (oracle : Nat → Nat)
    (h : contestants % 2 = 1) :
    n_guesses contestants oracle = .error .indexError := by
  have hlen : ((List.range contestants).map (fun i => toString i)).length = contestants := by
    simp
  rw [n_guesses, _generate_random_pairing,
    genRandomFuel_odd oracle _ _ [] 0 (by rw [hlen]; exact h) (by omega)]

/-- With two contestants there is a single possible pairing, so the
guessing loop never runs and `n_guesses` returns `0`, whatever the
randomness. -/
theorem n_guesses_two_ok (oracle : Nat → Nat) : n_guesses 2 oracle = .ok 0 := by
  have hgen : _generate_random_pairing ["0", "1"] oracle 0 =
        .ok ([("0", "1"), ("1", "0")], 2) ∨
      _generate_random_pairing ["0", "1"] oracle 0 =
        .ok ([("1", "0"), ("0", "1")], 2) := by
    rcases Nat.mod_two_eq_zero_or_one (oracle 0) with h | h
    · left
      rw [_generate_random_pairing]
      simp [genRandomFuel, h, Nat.mod_one, List.getD, dictSet]
    · right
      rw [_generate_random_pairing]
      simp [genRandomFuel, h, Nat.mod_one, List.getD, dictSet]
  rw [n_guesses]
  simp only [show (List.range 2).map (fun i => toString i) = ["0", "1"] from rfl]
  rcases hgen with h | h <;> rw [h] <;> rfl

/-- Correctness of core's `Nat.toDigitsCore` against Mathlib's
`Nat.digits`. -/
theorem toDigitsCore_eq_digits :
    ∀ (fuel n : Nat) (ds : List Char), 0 < n → n < fuel →
      Nat.toDigitsCore 10 fuel n ds =
        ((Nat.digits 10 n).map Nat.digitChar).reverse ++ ds := by
  intro fuel
  induction fuel with
  | zero => intro n ds _ h; omega
  | succ f ih =>
      intro n ds hpos hlt
      rw [Nat.toDigitsCore]
      by_cases h10 : n / 10 = 0
      · simp only [h10, if_true]
        rw [Nat.digits_def' (by norm_num : (1:Nat) < 10) hpos, h10]
        simp
      · simp only [h10, if_false]
        have hdiv_pos : 0 < n / 10 := Nat.pos_of_ne_zero h10
        have hdiv_lt : n / 10 < f := by
          have := Nat.div_lt_self hpos (by norm_num : 1 < 10)
          omega
        rw [ih (n / 10) _ hdiv_pos hdiv_lt]
        rw [Nat.digits_def' (by norm_num : (1:Nat) < 10) hpos]
        simp

/-- The decimal character list of a positive number. -/
theorem toDigits_pos_eq (n : Nat) (hpos : 0 < n) :
    Nat.toDigits 10 n = ((Nat.digits 10 n).map Nat.digitChar).reverse := by
  rw [Nat.toDigits, toDigitsCore_eq_digits (n + 1) n [] hpos (by omega)]
  simp

/-- Digit characters of distinct decimal digits are distinct. -/
theorem digitChar_inj_lt10 :
    ∀ a < 10, ∀ b < 10, Nat.digitChar a = Nat.digitChar b → a = b := by
  decide

/-- Mapping `Nat.digitChar` over decimal-digit lists is injective. -/
theorem map_digitChar_inj :
    ∀ (l1 l2 : List Nat), (∀ x ∈ l1, x < 10) → (∀ x ∈ l2, x < 10) →
      l1.map Nat.digitChar = l2.map Nat.digitChar → l1 = l2 := by
  intro l1
  induction l1 with
  | nil =>
      intro l2 _ _ h
      cases l2 with
      | nil => rfl
      | cons b t => simp at h
  | cons a t ih =>
      intro l2 h1 h2 h
      cases l2 with
      | nil => simp at h
      | cons b t2 =>
          simp only [List.map_cons, List.cons.injEq] at h
          have ha := h1 a (List.mem_cons_self _ _)
          have hb := h2 b (List.mem_cons_self _ _)
          have : a = b := digitChar_inj_lt10 a ha b hb h.1
          rw [this, ih t2 (fun x hx => h1 x (List.mem_cons_of_mem _ hx))
            (fun x hx => h2 x (List.mem_cons_of_mem _ hx)) h.2]

/-- Positive numbers with the same decimal character list are equal. -/
theorem digits_eq_of_toDigits_eq {m n : Nat} (hm : 0 < m) (hn : 0 < n)
    (hl : Nat.toDigits 10 m = Nat.toDigits 10 n) : m = n := by
  rw [toDigits_pos_eq m hm, toDigits_pos_eq n hn] at hl
  have hdg := map_digitChar_inj (Nat.digits 10 m).reverse (Nat.digits 10 n).reverse
    (by intro x hx
        simp only [List.mem_reverse] at hx
        exact Nat.digits_lt_base (by norm_num) hx)
    (by intro x hx
        simp only [List.mem_reverse] at hx
        exact Nat.digits_lt_base (by norm_num) hx)
    (by simpa [List.map_reverse] using hl)
  have hd : Nat.digits 10 m = Nat.digits 10 n := by
    have := congrArg List.reverse hdg
    simpa using this
  have := congrArg (Nat.ofDigits 10) hd
  rwa [Nat.ofDigits_digits, Nat.ofDigits_digits] at this

/-- Zero's decimal character list differs from any positive number's. -/
theorem toDigits_zero_ne_pos {n : Nat} (hn : 0 < n) :
    Nat.toDigits 10 0 ≠ Nat.toDigits 10 n := by
  intro hl
  rw [toDigits_pos_eq n hn] at hl
  have h0 : Nat.toDigits 10 0 = ['0'] := rfl
  rw [h0] at hl
  have hdg := map_digitChar_inj [0] (Nat.digits 10 n).reverse
    (by intro x hx; simp at hx; omega)
    (by intro x hx
        simp only [List.mem_reverse] at hx
        exact Nat.digits_lt_base (by norm_num) hx)
    (by simpa [List.map_reverse] using hl)
  have hrev : Nat.digits 10 n = [0] := by
    have := congrArg List.reverse hdg
    simpa using this.symm
  have hne := Nat.getLast_digit_ne_zero 10 (show n ≠ 0 by omega)
  simp only [hrev, List.getLast_singleton] at hne
  exact hne rfl

/-- The decimal representation of naturals is injective, so the contestant
names `str(i)` generated by `n_guesses` are pairwise distinct. -/
theorem nat_repr_injective : Function.Injective Nat.repr := by
  intro m n h
  rw [Nat.repr, Nat.repr] at h
  have hl : Nat.toDigits 10 m = Nat.toDigits 10 n := by
    have := congrArg String.data h
    simpa [List.asString] using this
  rcases Nat.eq_zero_or_pos m with hm | hm <;> rcases Nat.eq_zero_or_pos n with hn | hn
  · omega
  · exact absurd (hm ▸ hl) (toDigits_zero_ne_pos hn)
  · exact absurd (hn ▸ hl).symm (toDigits_zero_ne_pos hm)
  · exact digits_eq_of_toDigits_eq hm hn hl

/-- The contestant names generated by `n_guesses` are pairwise
distinct. -/
theorem range_names_nodup (n : Nat) :
    ((List.range n).map (fun i => toString i)).Nodup := by
  refine List.Nodup.map ?_ (List.nodup_range n)
  intro a b h
  exact nat_repr_injective h

/-- Membership in the key list in terms of dict entries. -/
theorem mem_keysOf {d : Pairing} {a : String} : a ∈ keysOf d ↔ ∃ b, (a, b) ∈ d := by
  constructor
  · intro h
    obtain ⟨⟨x, y⟩, hm, hx⟩ := List.mem_map.mp h
    exact ⟨y, by rwa [show x = a from hx] at hm⟩
  · rintro ⟨b, hb⟩
    exact List.mem_map.mpr ⟨(a, b), hb, rfl⟩

/-- Lookup of an absent key. -/
theorem dictGet_eq_none_of_not_mem :
    ∀ {d : Pairing} {a : String}, a ∉ keysOf d → dictGet d a = none := by
  intro d
  induction d with
  | nil => intro a _; rfl
  | cons hd tl ih =>
      intro a h
      obtain ⟨x, y⟩ := hd
      simp only [keysOf, List.map_cons, List.mem_cons] at h
      push_neg at h
      rw [dictGet, if_neg (fun he => h.1 he.symm)]
      exact ih (fun hm => h.2 hm)

/-- Lookup of a present key succeeds. -/
theorem dictGet_isSome_of_mem :
    ∀ {d : Pairing} {a : String}, a ∈ keysOf d → ∃ b, dictGet d a = some b := by
  intro d
  induction d with
  | nil => intro a h; cases h
  | cons hd tl ih =>
      intro a h
      obtain ⟨x, y⟩ := hd
      by_cases hxa : x = a
      · exact ⟨y, by rw [dictGet, if_pos hxa]⟩
      · rw [dictGet, if_neg hxa]
        refine ih ?_
        simp only [keysOf, List.map_cons, List.mem_cons] at h
        rcases h with h | h
        · exact absurd h.symm hxa
        · exact h

/-- Lookup in an append whose key is on the left. -/
theorem dictGet_append_left :
    ∀ {d : Pairing} (e : Pairing) {a : String}, a ∈ keysOf d →
      dictGet (d ++ e) a = dictGet d a := by
  intro d
  induction d with
  | nil => intro e a h; cases h
  | cons hd tl ih =>
      intro e a h
      obtain ⟨x, y⟩ := hd
      by_cases hxa : x = a
      · rw [List.cons_append, dictGet, dictGet, if_pos hxa, if_pos hxa]
      · rw [List.cons_append, dictGet, dictGet, if_neg hxa, if_neg hxa]
        refine ih e ?_
        simp only [keysOf, List.map_cons, List.mem_cons] at h
        rcases h with h | h
        · exact absurd h.symm hxa
        · exact h

/-- Lookup in an append whose key is not on the left. -/
theorem dictGet_append_right :
    ∀ {d : Pairing} (e : Pairing) {a : String}, a ∉ keysOf d →
      dictGet (d ++ e) a = dictGet e a := by
  intro d
  induction d with
  | nil => intro e a _; rfl
  | cons hd tl ih =>
      intro e a h
      obtain ⟨x, y⟩ := hd
      simp only [keysOf, List.map_cons, List.mem_cons] at h
      push_neg at h
      rw [List.cons_append, dictGet, if_neg (fun he => h.1 he.symm)]
      exact ih e (fun hm => h.2 hm)

/-- Adding an absent element to an embedded set appends it. -/
theorem setAdd_not_mem {s : Pairing} {x : String × String} (h : x ∉ s) :
    setAdd s x = s ++ [x] := by
  rw [setAdd, if_neg h]

/-- Assigning an absent key appends the entry. -/
theorem dictSet_not_mem :
    ∀ {d : Pairing} {k v : String}, k ∉ keysOf d → dictSet d k v = d ++ [(k, v)] := by
  intro d
  induction d with
  | nil => intro k v _; rfl
  | cons hd tl ih =>
      intro k v h
      obtain ⟨x, y⟩ := hd
      simp only [keysOf, List.map_cons, List.mem_cons] at h
      push_neg at h
      rw [dictSet, if_neg (fun he => h.1 he.symm), ih (fun hm => h.2 hm)]
      simp

/-- Converting a duplicate-free-key pair list to a dict is the identity. -/
theorem toDict_foldl_eq :
    ∀ (l acc : Pairing), (keysOf (acc ++ l)).Nodup →
      l.foldl (fun d p => dictSet d p.1 p.2) acc = acc ++ l := by
  intro l
  induction l with
  | nil => intro acc _; simp
  | cons hd tl ih =>
      intro acc h
      obtain ⟨k, v⟩ := hd
      have hk : k ∉ keysOf acc := by
        intro hmem
        have : ¬ (keysOf (acc ++ (k, v) :: tl)).Nodup := by
          simp only [keysOf, List.map_append, List.map_cons]
          intro hnd
          have := (List.nodup_append.mp hnd).2.2
          exact this hmem (List.mem_cons_self _ _)
        exact this h
      rw [List.foldl_cons]
      simp only
      rw [dictSet_not_mem hk]
      have hrearr : (acc ++ [(k, v)]) ++ tl = acc ++ (k, v) :: tl := by simp
      rw [ih (acc ++ [(k, v)]) (by rw [hrearr]; exact h), hrearr]

/-- `toDict` is the identity on pair lists with duplicate-free keys. -/
theorem toDict_eq_self {l : Pairing} (h : (keysOf l).Nodup) : toDict l = l := by
  rw [toDict, toDict_foldl_eq l [] (by simpa using h)]
  simp

/-- Setting an index to the value it already holds changes nothing. -/
theorem set_getD_eq_self {α : Type} :
    ∀ (l : List α) (i : Nat) (d : α), i < l.length → l.set i (l.getD i d) = l := by
  intro l
  induction l with
  | nil => intro i d h; simp at h
  | cons a t ih =>
      intro i d h
      cases i with
      | zero => rfl
      | succ j =>
          simp only [List.set_cons_succ, List.cons.injEq, true_and]
          exact ih j d (by simpa using h)

/-- An in-range `getD` is a member. -/
theorem getD_mem {α : Type} (l : List α) (i : Nat) (d : α) (h : i < l.length) :
    l.getD i d ∈ l := by
  rw [List.getD_eq_getElem l d h]
  exact List.getElem_mem h

/-- `EqOn` is symmetric. -/
theorem eqOn_symm {d e : Pairing} (h : EqOn d e) : EqOn e d :=
  fun a => (h a).symm

/-- `EqOn` is transitive. -/
theorem eqOn_trans {d e f : Pairing} (h1 : EqOn d e) (h2 : EqOn e f) : EqOn d f :=
  fun a => (h1 a).trans (h2 a)

/-- A list is a permutation of any of its elements consed onto the list
with that position erased. -/
theorem perm_getD_cons_eraseIdx {α : Type} :
    ∀ (l : List α) (i : Nat) (d : α), i < l.length →
      l.Perm (l.getD i d :: l.eraseIdx i) := by
  intro l
  induction l with
  | nil => intro i d h; simp at h
  | cons a t ih =>
      intro i d h
      cases i with
      | zero => rfl
      | succ j =>
          have hj : j < t.length := by simpa using h
          have h1 := List.Perm.cons a (ih j d hj)
          have h2 : (a :: (t.getD j d :: t.eraseIdx j)).Perm
              (t.getD j d :: a :: t.eraseIdx j) :=
            List.Perm.swap (t.getD j d) a (t.eraseIdx j)
          exact h1.trans h2

/-- The agreement count never exceeds the number of guess entries. -/
theorem countCorrect_le :
    ∀ {g t : Pairing} {c : Nat}, countCorrect g t = some c → c ≤ g.length := by
  intro g
  induction g with
  | nil =>
      intro t c h
      cases h
      exact Nat.zero_le _
  | cons hd tl ih =>
      intro t c h
      obtain ⟨a, b⟩ := hd
      rw [countCorrect] at h
      cases hg : dictGet t a with
      | none => rw [hg] at h; cases h
      | some tb =>
          rw [hg] at h
          cases hc : countCorrect tl t with
          | none => rw [hc] at h; cases h
          | some c' =>
              rw [hc] at h
              simp only [Option.map_some', Option.some.injEq] at h
              have := ih hc
              subst h
              by_cases hb : b = tb <;> simp [hb, List.length_cons] <;> omega

/-- The agreement count is defined whenever every guess key is a truth
key, and is bounded by the number of entries. -/
theorem countCorrect_isSome (g t : Pairing) (h : ∀ p ∈ g, p.1 ∈ keysOf t) :
    ∃ c, countCorrect g t = some c := by
  induction g with
  | nil => exact ⟨0, rfl⟩
  | cons hd tl ih =>
      obtain ⟨a, b⟩ := hd
      obtain ⟨tb, htb⟩ := dictGet_isSome_of_mem (h (a, b) (List.mem_cons_self _ _))
      obtain ⟨c, hc⟩ := ih (fun p hp => h p (List.mem_cons_of_mem _ hp))
      exact ⟨(if b = tb then 1 else 0) + c, by rw [countCorrect, htb, hc]; rfl⟩

/-- A full agreement count means every guessed entry matches the truth. -/
theorem countCorrect_full :
    ∀ {g t : Pairing}, countCorrect g t = some g.length →
      ∀ p ∈ g, dictGet t p.1 = some p.2 := by
  intro g
  induction g with
  | nil => intro t _ p hp; cases hp
  | cons hd tl ih =>
      intro t h p hp
      obtain ⟨a, b⟩ := hd
      rw [countCorrect] at h
      cases hg : dictGet t a with
      | none => rw [hg] at h; cases h
      | some tb =>
          rw [hg] at h
          cases hc : countCorrect tl t with
          | none => rw [hc] at h; cases h
          | some c' =>
              rw [hc] at h
              simp only [Option.map_some', Option.some.injEq, List.length_cons] at h
              have hle := countCorrect_le hc
              have hb : b = tb := by
                by_contra hne
                rw [if_neg hne] at h
                omega
              have hc' : c' = tl.length := by
                rw [if_pos hb] at h
                omega
              rcases List.mem_cons.mp hp with hph | hpt
              · subst hph
                rw [hg, hb]
              · exact ih (hc' ▸ hc) p hpt

/-- The agreement count only inspects the truth through lookups. -/
theorem countCorrect_congr :
    ∀ (g : Pairing) {t t' : Pairing}, EqOn t t' → countCorrect g t = countCorrect g t' := by
  intro g
  induction g with
  | nil => intro t t' _; rfl
  | cons hd tl ih =>
      intro t t' h
      obtain ⟨a, b⟩ := hd
      rw [countCorrect, countCorrect, h a, ih h]

/-- Lights against extensionally equal truths coincide. -/
theorem lights_congr {g t t' : Pairing} (h : EqOn t t') :
    _get_lights g t = _get_lights g t' := by
  rw [_get_lights, _get_lights, countCorrect_congr g h]

/-- A dict with duplicate-free keys scores the maximum against itself. -/
theorem lights_self {g : Pairing} (hnd : (keysOf g).Nodup) :
    _get_lights g g = some (g.length / 2) := by
  have h : ∀ p ∈ g, dictGet g p.1 = some p.2 := by
    intro p hp
    exact dictGet_of_nodup_mem hnd (by cases p; exact hp)
  simp [_get_lights, countCorrect_all_correct h]

/-- The keys of a perfect matching permute the participant list. -/
theorem isPM_keys_perm {names : List String} {d : Pairing} (hn : names.Nodup)
    (h : IsPM names d) : (keysOf d).Perm names :=
  (List.perm_ext_iff_of_nodup h.1 hn).mpr h.2.1

/-- A perfect matching has as many entries as participants. -/
theorem isPM_length {names : List String} {d : Pairing} (hn : names.Nodup)
    (h : IsPM names d) : d.length = names.length := by
  have := (isPM_keys_perm hn h).length_eq
  simpa [keysOf] using this

/-- Values of a perfect matching are also keys. -/
theorem isPM_val_mem_keys {names : List String} {d : Pairing} (h : IsPM names d)
    {p : String × String} (hp : p ∈ d) : p.2 ∈ keysOf d :=
  mem_keysOf.mpr ⟨p.1, h.2.2.1 p hp⟩

/-- Lights between two perfect matchings over the same participants are
always defined. -/
theorem lights_isSome_of_isPM {names : List String} {g t : Pairing}
    (hg : IsPM names g) (ht : IsPM names t) : ∃ li, _get_lights g t = some li := by
  obtain ⟨c, hc⟩ := countCorrect_isSome g t (fun p hp =>
    (ht.2.1 p.1).mpr ((hg.2.1 p.1).mp (List.mem_map.mpr ⟨p, hp, rfl⟩)))
  exact ⟨c / 2, by rw [_get_lights, hc, Option.map_some']⟩

/-- Scoring the maximum number of lights against a guess pins the truth
down to the guess itself. -/
theorem lights_max_eqOn {names : List String} {g t : Pairing} (hn : names.Nodup)
    (heven : names.length % 2 = 0) (hg : IsPM names g) (ht : IsPM names t)
    (h : _get_lights g t = some (names.length / 2)) : EqOn g t := by
  rw [_get_lights] at h
  cases hc : countCorrect g t with
  | none => rw [hc] at h; cases h
  | some c =>
      rw [hc] at h
      simp only [Option.map_some', Option.some.injEq] at h
      have hle : c ≤ g.length := countCorrect_le hc
      have hlen : g.length = names.length := isPM_length hn hg
      have hc_eq : c = g.length := by omega
      have hall := countCorrect_full (hc_eq ▸ hc)
      intro a
      by_cases ha : a ∈ keysOf g
      · obtain ⟨b, hb⟩ := mem_keysOf.mp ha
        rw [dictGet_of_nodup_mem hg.1 hb, hall (a, b) hb]
      · have hat : a ∉ keysOf t := fun hmem => ha ((hg.2.1 a).mpr ((ht.2.1 a).mp hmem))
        rw [dictGet_eq_none_of_not_mem ha, dictGet_eq_none_of_not_mem hat]

/-- When every hypothesis admits a lights evaluation, the weeding loop is
a plain filter. -/
theorem filterCorrect_spec (g : Pairing) (li : Nat) :
    ∀ l : List Pairing, (∀ p ∈ l, ∃ c, _get_lights g p = some c) →
      filterCorrect g li l =
        .ok (l.filter (fun p => decide (_get_lights g p = some li))) := by
  intro l
  induction l with
  | nil => intro _; rfl
  | cons p ps ih =>
      intro h
      obtain ⟨c, hc⟩ := h p (List.mem_cons_self _ _)
      rw [filterCorrect, _correct_number, hc]
      simp only [Option.map_some']
      rw [ih (fun q hq => h q (List.mem_cons_of_mem _ hq))]
      simp only [List.filter_cons, hc, Option.some.injEq]

/-- Folding `max` over a constant list. -/
theorem foldl_max_const {K : Nat} :
    ∀ (m : List Nat) (acc : Nat), (∀ x ∈ m, x = K) → m ≠ [] →
      m.foldl max acc = max acc K := by
  intro m
  induction m with
  | nil => intro acc _ hne; exact absurd rfl hne
  | cons x t ih =>
      intro acc h hne
      have hx : x = K := h x (List.mem_cons_self _ _)
      subst hx
      cases t with
      | nil => rfl
      | cons y t' =>
          rw [List.foldl_cons, ih (max acc x) (fun z hz => h z (List.mem_cons_of_mem _ hz))
            (by simp), Nat.max_assoc, Nat.max_self]

/-- Weeding a list whose members all have the same size is the
identity. -/
theorem weed_id {lst : List Pairing} {K : Nat} (h : ∀ s ∈ lst, s.length = K) :
    _weed_out_wrong_size lst = lst := by
  rw [_weed_out_wrong_size]
  by_cases hl : lst.length ≤ 1
  · simp [hl]
  · simp only [hl, if_false]
    have hne : lst.map List.length ≠ [] := by
      intro he
      have : lst = [] := List.map_eq_nil_iff.mp he
      rw [this] at hl
      simp at hl
    have hmax : (lst.map List.length).foldl max 0 = max 0 K :=
      foldl_max_const _ 0
        (by intro x hx
            obtain ⟨s, hs, hlen⟩ := List.mem_map.mp hx
            rw [← hlen]
            exact h s hs) hne
    rw [hmax, Nat.zero_max]
    refine List.filter_eq_self.mpr ?_
    intro s hs
    simp [h s hs]

/-- On an even number of remaining participants, the random-pairing loop
always succeeds and extends the accumulated pairs to a symmetric,
fixed-point-free dict whose keys are the old keys plus the remaining
participants. -/
theorem genRandomFuel_spec (oracle : Nat → Nat) :
    ∀ (fuel : Nat) (people : List String) (pairs : Pairing) (c : Nat),
      people.Nodup → people.length % 2 = 0 → people.length < 2 * fuel →
      (keysOf pairs).Nodup →
      (∀ p ∈ pairs, (p.2, p.1) ∈ pairs) →
      (∀ p ∈ pairs, p.1 ≠ p.2) →
      (∀ x ∈ people, x ∉ keysOf pairs) →
      ∃ res c', genRandomFuel oracle fuel people pairs c = .ok (res, c') ∧
        (keysOf res).Nodup ∧
        (∀ a, a ∈ keysOf res ↔ a ∈ keysOf pairs ∨ a ∈ people) ∧
        (∀ p ∈ res, (p.2, p.1) ∈ res) ∧
        (∀ p ∈ res, p.1 ≠ p.2) := by
  intro fuel
  induction fuel with
  | zero => intro people pairs c _ _ hlt; omega
  | succ f ih =>
      intro people pairs c hnd heven hlt hknd hsym hnofix hdisj
      by_cases hemp : people.length = 0
      · refine ⟨pairs, c, ?_, hknd, ?_, hsym, hnofix⟩
        · rw [genRandomFuel]
          simp [isEmpty_true_of_eq_zero hemp]
        · intro a
          have : people = [] := List.length_eq_zero.mp hemp
          simp [this]
      · have hpos : 0 < people.length := Nat.pos_of_ne_zero hemp
        have hge2 : 2 ≤ people.length := by omega
        have hia : oracle c % people.length < people.length := Nat.mod_lt _ hpos
        set a := people.getD (oracle c % people.length) "" with ha_def
        set people1 := people.eraseIdx (oracle c % people.length) with hp1_def
        have hperm1 : people.Perm (a :: people1) :=
          perm_getD_cons_eraseIdx people _ "" hia
        have hlen1 : people1.length = people.length - 1 := by
          have := hperm1.length_eq
          simp at this
          omega
        have hne1 : people1.length ≠ 0 := by omega
        have hib : oracle (c + 1) % people1.length < people1.length :=
          Nat.mod_lt _ (Nat.pos_of_ne_zero hne1)
        set b := people1.getD (oracle (c + 1) % people1.length) "" with hb_def
        set people2 := people1.eraseIdx (oracle (c + 1) % people1.length) with hp2_def
        have hperm2 : people1.Perm (b :: people2) :=
          perm_getD_cons_eraseIdx people1 _ "" hib
        have hlen2 : people2.length = people.length - 2 := by
          have := hperm2.length_eq
          simp at this
          omega
        have hnd1 : (a :: people1).Nodup := hperm1.nodup_iff.mp hnd
        have ha_nin : a ∉ people1 := (List.nodup_cons.mp hnd1).1
        have hnd1' : people1.Nodup := (List.nodup_cons.mp hnd1).2
        have hnd2 : (b :: people2).Nodup := hperm2.nodup_iff.mp hnd1'
        have hb_nin : b ∉ people2 := (List.nodup_cons.mp hnd2).1
        have hnd2' : people2.Nodup := (List.nodup_cons.mp hnd2).2
        have ha_mem : a ∈ people := getD_mem people _ "" hia
        have hb_mem1 : b ∈ people1 := getD_mem people1 _ "" hib
        have hb_mem : b ∈ people := by
          rw [hp1_def] at hb_mem1
          exact (List.eraseIdx_sublist people _).subset hb_mem1
        have hab : a ≠ b := fun h => ha_nin (h ▸ hb_mem1)
        have ha_nk : a ∉ keysOf pairs := hdisj a ha_mem
        have hb_nk : b ∉ keysOf pairs := hdisj b hb_mem
        have hpairs : dictSet (dictSet pairs a b) b a = pairs ++ [(a, b), (b, a)] := by
          rw [dictSet_not_mem ha_nk, dictSet_not_mem (by
            simp only [keysOf, List.map_append, List.map_cons, List.map_nil,
              List.mem_append, List.mem_cons]
            push_neg
            exact ⟨fun hm => hb_nk hm, fun he => hab he.symm, fun h => List.not_mem_nil b h⟩)]
          simp
        have hkeys' : keysOf (pairs ++ [(a, b), (b, a)]) = keysOf pairs ++ [a, b] := by
          simp [keysOf]
        have hknd' : (keysOf (pairs ++ [(a, b), (b, a)])).Nodup := by
          rw [hkeys', List.nodup_append]
          refine ⟨hknd, by simp [hab], ?_⟩
          intro x hx hx2
          simp only [List.mem_cons, List.not_mem_nil, or_false] at hx2
          rcases hx2 with rfl | rfl
          · exact ha_nk hx
          · exact hb_nk hx
        have hsym' : ∀ p ∈ pairs ++ [(a, b), (b, a)],
            (p.2, p.1) ∈ pairs ++ [(a, b), (b, a)] := by
          intro p hp
          rcases List.mem_append.mp hp with h | h
          · exact List.mem_append_left _ (hsym p h)
          · simp only [List.mem_cons, List.not_mem_nil, or_false] at h
            rcases h with rfl | rfl
            · simp
            · simp
        have hnofix' : ∀ p ∈ pairs ++ [(a, b), (b, a)], p.1 ≠ p.2 := by
          intro p hp
          rcases List.mem_append.mp hp with h | h
          · exact hnofix p h
          · simp only [List.mem_cons, List.not_mem_nil, or_false] at h
            rcases h with rfl | rfl
            · exact hab
            · exact hab.symm
        have hdisj' : ∀ x ∈ people2, x ∉ keysOf (pairs ++ [(a, b), (b, a)]) := by
          intro x hx
          have hx1 : x ∈ people1 := by
            rw [hp2_def] at hx
            exact (List.eraseIdx_sublist people1 _).subset hx
          have hxp : x ∈ people := by
            rw [hp1_def] at hx1
            exact (List.eraseIdx_sublist people _).subset hx1
          rw [hkeys']
          intro hmem
          rcases List.mem_append.mp hmem with h | h
          · exact hdisj x hxp h
          · simp only [List.mem_cons, List.not_mem_nil, or_false] at h
            rcases h with rfl | rfl
            · exact ha_nin hx1
            · exact hb_nin hx
        obtain ⟨res, c', heq, h1, h2, h3, h4⟩ :=
          ih people2 (pairs ++ [(a, b), (b, a)]) (c + 2) hnd2'
            (by omega) (by omega) hknd' hsym' hnofix' hdisj'
        refine ⟨res, c', ?_, h1, ?_, h3, h4⟩
        · rw [genRandomFuel]
          simp only [isEmpty_false_of_ne_zero hemp, Bool.false_eq_true, if_false]
          rw [← hp1_def]
          simp only [isEmpty_false_of_ne_zero hne1, Bool.false_eq_true, if_false]
          rw [← ha_def, ← hb_def, ← hp2_def, hpairs]
          exact heq
        · intro x
          rw [h2 x]
          have e1 : x ∈ people ↔ x = a ∨ x ∈ people1 := by
            rw [hperm1.mem_iff]
            simp
          have e2 : x ∈ people1 ↔ x = b ∨ x ∈ people2 := by
            rw [hperm2.mem_iff]
            simp
          have e3 : x ∈ keysOf (pairs ++ [(a, b), (b, a)]) ↔
              x ∈ keysOf pairs ∨ x = a ∨ x = b := by
            rw [hkeys']
            simp
          rw [e3, e1, e2]
          constructor
          · rintro (h | h)
            · rcases h with h | h
              · exact Or.inl h
              · exact Or.inr (h.imp id Or.inl)
            · exact Or.inr (Or.inr (Or.inr h))
          · rintro (h | h)
            · exact Or.inl (Or.inl h)
            · rcases h with h | h
              · exact Or.inl (Or.inr (Or.inl h))
              · rcases h with h | h
                · exact Or.inl (Or.inr (Or.inr h))
                · exact Or.inr h

/-- Lookup through a filter on keys. -/
theorem dictGet_filter_keys :
    ∀ (d : Pairing) (q : String → Bool) (a : String),
      dictGet (d.filter (fun p => q p.1)) a = if q a then dictGet d a else none := by
  intro d
  induction d with
  | nil =>
      intro q a
      by_cases hq : q a <;> simp [hq, dictGet]
  | cons hd tl ih =>
      intro q a
      obtain ⟨x, y⟩ := hd
      by_cases hqx : q x
      · rw [List.filter_cons_of_pos (by simpa using hqx)]
        by_cases hxa : x = a
        · subst hxa
          rw [dictGet, if_pos rfl, if_pos hqx, dictGet, if_pos rfl]
        · rw [dictGet, if_neg hxa, ih q a]
          by_cases hqa : q a
          · rw [if_pos hqa, if_pos hqa, dictGet, if_neg hxa]
          · rw [if_neg hqa, if_neg hqa]
      · rw [List.filter_cons_of_neg (by simpa using hqx)]
        rw [ih q a]
        by_cases hqa : q a
        · rw [if_pos hqa, if_pos hqa]
          have hxa : x ≠ a := fun he => hqx (he ▸ hqa)
          rw [dictGet, if_neg hxa]
        · rw [if_neg hqa, if_neg hqa]

/-- A dict with no keys is empty. -/
theorem eq_nil_of_keys_empty {d : Pairing}
    (h : ∀ a, a ∈ keysOf d ↔ a ∈ ([] : List String)) : d = [] := by
  cases d with
  | nil => rfl
  | cons p tl =>
      exfalso
      have : p.1 ∈ keysOf (p :: tl) := List.mem_map.mpr ⟨p, List.mem_cons_self _ _, rfl⟩
      simpa using (h p.1).mp this

/-- Removing the pair of `first` and `other` from a perfect matching of
`first :: rest` leaves a perfect matching of the remaining group. -/
theorem restrict_isPM (first other : String) (rest next : List String) (d : Pairing)
    (hf_nin : first ∉ rest) (hperm : rest.Perm (other :: next)) (ho_nin : other ∉ next)
    (hd : IsPM (first :: rest) d) (hdf : dictGet d first = some other) :
    IsPM next (d.filter (fun p => decide (p.1 ≠ first ∧ p.1 ≠ other))) := by
  have hmemd' : ∀ p : String × String,
      p ∈ d.filter (fun p => decide (p.1 ≠ first ∧ p.1 ≠ other)) ↔
        p ∈ d ∧ p.1 ≠ first ∧ p.1 ≠ other := by
    intro p
    rw [List.mem_filter]
    simp
  refine ⟨?_, ?_, ?_, ?_⟩
  · exact hd.1.sublist (List.Sublist.map Prod.fst (List.filter_sublist d))
  · intro x
    constructor
    · intro hx
      obtain ⟨b, hb⟩ := mem_keysOf.mp hx
      obtain ⟨hbd, hxf, hxo⟩ := (hmemd' (x, b)).mp hb
      have hxp : x ∈ first :: rest := (hd.2.1 x).mp (mem_keysOf.mpr ⟨b, hbd⟩)
      rcases List.mem_cons.mp hxp with h | h
      · exact absurd h hxf
      · rcases List.mem_cons.mp (hperm.mem_iff.mp h) with h' | h'
        · exact absurd h' hxo
        · exact h'
    · intro hx
      have hxr : x ∈ rest := hperm.mem_iff.mpr (List.mem_cons_of_mem _ hx)
      have hxf : x ≠ first := fun he => hf_nin (he ▸ hxr)
      have hxo : x ≠ other := fun he => ho_nin (he ▸ hx)
      obtain ⟨b, hb⟩ := mem_keysOf.mp ((hd.2.1 x).mpr (List.mem_cons_of_mem _ hxr))
      exact mem_keysOf.mpr ⟨b, (hmemd' (x, b)).mpr ⟨hb, hxf, hxo⟩⟩
  · intro p hp
    obtain ⟨hpd, hpf, hpo⟩ := (hmemd' p).mp hp
    have hrev : (p.2, p.1) ∈ d := hd.2.2.1 p hpd
    have hfo : (first, other) ∈ d := dictGet_mem hdf
    have hof : (other, first) ∈ d := hd.2.2.1 (first, other) hfo
    refine (hmemd' (p.2, p.1)).mpr ⟨hrev, ?_, ?_⟩
    · intro he
      have : dictGet d first = some p.1 := dictGet_of_nodup_mem hd.1 (he ▸ hrev)
      rw [hdf] at this
      exact hpo (Option.some.inj this).symm
    · intro he
      have h1 : dictGet d other = some p.1 := dictGet_of_nodup_mem hd.1 (he ▸ hrev)
      have h2 : dictGet d other = some first := dictGet_of_nodup_mem hd.1 hof
      rw [h2] at h1
      exact hpf (Option.some.inj h1).symm
  · intro p hp
    exact hd.2.2.2 p ((hmemd' p).mp hp).1

/-- Extending a perfect matching of the remaining group with the chosen
pair yields a perfect matching of the full group. -/
theorem extend_pair_isPM (first other : String) (rest next : List String) (s : Pairing)
    (hf_nin : first ∉ rest) (hperm : rest.Perm (other :: next)) (ho_nin : other ∉ next)
    (hs : IsPM next s) (hslen : s.length = next.length) :
    IsPM (first :: rest) (s ++ [(first, other), (other, first)]) ∧
    (s ++ [(first, other), (other, first)]).length = (first :: rest).length ∧
    dictGet (s ++ [(first, other), (other, first)]) first = some other := by
  have ho_rest : other ∈ rest := hperm.mem_iff.mpr (List.mem_cons_self _ _)
  have hfo : first ≠ other := fun he => hf_nin (he ▸ ho_rest)
  have hnext_sub : ∀ x ∈ next, x ∈ rest := fun x hx =>
    hperm.mem_iff.mpr (List.mem_cons_of_mem _ hx)
  have hfk : first ∉ keysOf s := fun hm => hf_nin (hnext_sub first ((hs.2.1 first).mp hm))
  have hok : other ∉ keysOf s := fun hm => ho_nin ((hs.2.1 other).mp hm)
  have hkeys : keysOf (s ++ [(first, other), (other, first)]) =
      keysOf s ++ [first, other] := by simp [keysOf]
  refine ⟨⟨?_, ?_, ?_, ?_⟩, ?_, ?_⟩
  · rw [hkeys, List.nodup_append]
    refine ⟨hs.1, by simp [hfo], ?_⟩
    intro x hx hx2
    simp only [List.mem_cons, List.not_mem_nil, or_false] at hx2
    rcases hx2 with rfl | rfl
    · exact hfk hx
    · exact hok hx
  · intro x
    rw [hkeys]
    constructor
    · intro hx
      rcases List.mem_append.mp hx with h | h
      · exact List.mem_cons_of_mem _ (hnext_sub x ((hs.2.1 x).mp h))
      · simp only [List.mem_cons, List.not_mem_nil, or_false] at h
        rcases h with rfl | rfl
        · exact List.mem_cons_self _ _
        · exact List.mem_cons_of_mem _ ho_rest
    · intro hx
      rcases List.mem_cons.mp hx with rfl | h
      · exact List.mem_append_right _ (by simp)
      · rcases List.mem_cons.mp (hperm.mem_iff.mp h) with rfl | h'
        · exact List.mem_append_right _ (by simp)
        · exact List.mem_append_left _ ((hs.2.1 x).mpr h')
  · intro p hp
    rcases List.mem_append.mp hp with h | h
    · exact List.mem_append_left _ (hs.2.2.1 p h)
    · simp only [List.mem_cons, List.not_mem_nil, or_false] at h
      rcases h with rfl | rfl
      · exact List.mem_append_right _ (by simp)
      · exact List.mem_append_right _ (by simp)
  · intro p hp
    rcases List.mem_append.mp hp with h | h
    · exact hs.2.2.2 p h
    · simp only [List.mem_cons, List.not_mem_nil, or_false] at h
      rcases h with rfl | rfl
      · exact hfo
      · exact hfo.symm
  · have := hperm.length_eq
    simp only [List.length_append, List.length_cons, List.length_nil] at *
    omega
  · rw [dictGet_append_right _ hfk, dictGet, if_pos rfl]

/-- The extension of a restricted matching looks up like the original
matching. -/
theorem extend_pair_eqOn (first other : String) (rest next : List String)
    (s d : Pairing)
    (hf_nin : first ∉ rest) (hperm : rest.Perm (other :: next)) (ho_nin : other ∉ next)
    (hs : IsPM next s) (hd : IsPM (first :: rest) d)
    (hdf : dictGet d first = some other)
    (heq : EqOn s (d.filter (fun p => decide (p.1 ≠ first ∧ p.1 ≠ other)))) :
    EqOn (s ++ [(first, other), (other, first)]) d := by
  have ho_rest : other ∈ rest := hperm.mem_iff.mpr (List.mem_cons_self _ _)
  have hfo : first ≠ other := fun he => hf_nin (he ▸ ho_rest)
  have hnext_sub : ∀ x ∈ next, x ∈ rest := fun x hx =>
    hperm.mem_iff.mpr (List.mem_cons_of_mem _ hx)
  have hfk : first ∉ keysOf s := fun hm => hf_nin (hnext_sub first ((hs.2.1 first).mp hm))
  have hok : other ∉ keysOf s := fun hm => ho_nin ((hs.2.1 other).mp hm)
  have hfo_d : (first, other) ∈ d := dictGet_mem hdf
  have hof_d : (other, first) ∈ d := hd.2.2.1 (first, other) hfo_d
  intro x
  by_cases hxf : x = first
  · subst hxf
    rw [dictGet_append_right _ hfk, dictGet, if_pos rfl, hdf]
  · by_cases hxo : x = other
    · subst hxo
      rw [dictGet_append_right _ hok, dictGet, if_neg hfo, dictGet, if_pos rfl,
        dictGet_of_nodup_mem hd.1 hof_d]
    · by_cases hxs : x ∈ keysOf s
      · rw [dictGet_append_left _ hxs, heq x,
          show (fun p : String × String => decide (p.1 ≠ first ∧ p.1 ≠ other)) =
            (fun p : String × String => (fun a => decide (a ≠ first ∧ a ≠ other)) p.1)
            from rfl,
          dictGet_filter_keys d (fun a => decide (a ≠ first ∧ a ≠ other)) x,
          if_pos (by simp [hxf, hxo])]
      · have hxnext : x ∉ next := fun hn => hxs ((hs.2.1 x).mpr hn)
        have hxd : x ∉ keysOf d := by
          intro hm
          have hxp : x ∈ first :: rest := (hd.2.1 x).mp hm
          rcases List.mem_cons.mp hxp with h | h
          · exact hxf h
          · rcases List.mem_cons.mp (hperm.mem_iff.mp h) with h' | h'
            · exact hxo h'
            · exact hxnext h'
        rw [dictGet_eq_none_of_not_mem hxd]
        refine dictGet_eq_none_of_not_mem ?_
        rw [show keysOf (s ++ [(first, other), (other, first)]) =
          keysOf s ++ [first, other] from by simp [keysOf]]
        intro hm
        rcases List.mem_append.mp hm with h | h
        · exact hxs h
        · simp only [List.mem_cons, List.not_mem_nil, or_false] at h
          rcases h with rfl | rfl
          · exact hxf rfl
          · exact hxo rfl

/-- Pair extension reflects extensional equality. -/
theorem extend_pair_eqOn_inj (first other : String) (next : List String)
    (s t : Pairing)
    (hks : ∀ a, a ∈ keysOf s ↔ a ∈ next) (hkt : ∀ a, a ∈ keysOf t ↔ a ∈ next)
    (h : EqOn (s ++ [(first, other), (other, first)])
      (t ++ [(first, other), (other, first)])) : EqOn s t := by
  intro x
  by_cases hxs : x ∈ keysOf s
  · have hxt : x ∈ keysOf t := (hkt x).mpr ((hks x).mp hxs)
    have := h x
    rwa [dictGet_append_left _ hxs, dictGet_append_left _ hxt] at this
  · have hxt : x ∉ keysOf t := fun hm => hxs ((hks x).mpr ((hkt x).mp hm))
    rw [dictGet_eq_none_of_not_mem hxs, dictGet_eq_none_of_not_mem hxt]

/-- The double-factorial recurrence in the form used by the generator. -/
theorem doubleFactorial_step (L : Nat) (h : 2 ≤ L) :
    Nat.doubleFactorial (L - 1) = (L - 1) * Nat.doubleFactorial (L - 3) := by
  rcases Nat.lt_or_ge L 3 with h3 | h3
  · have : L = 2 := by omega
    subst this
    decide
  · have he : L - 1 = (L - 3) + 2 := by omega
    rw [he, Nat.doubleFactorial_add_two]

/-- Unconstrained generator specification: on a duplicate-free, even-sized,
non-empty participant list, `gapFuel` succeeds, returns double-factorially
many pairings, every returned pairing is a perfect matching of the whole
group, every perfect matching is represented, and distinct results are
extensionally distinct. -/
theorem gap_spec :
    ∀ (fuel : Nat) (people : List String), people ≠ [] → people.Nodup →
      people.length % 2 = 0 → people.length < 2 * fuel →
      ∃ outs, gapFuel fuel people [] [] [] = .ok outs ∧
        outs.length = Nat.doubleFactorial (people.length - 1) ∧
        (∀ s ∈ outs, IsPM people s ∧ s.length = people.length) ∧
        (∀ d, IsPM people d → ∃ s ∈ outs, EqOn s d) ∧
        outs.Pairwise (fun s t => ¬ EqOn s t) := by
  intro fuel
  induction fuel with
  | zero => intro people _ _ _ hlt; omega
  | succ f ih =>
      intro people hne hnd heven hlt
      cases people with
      | nil => exact absurd rfl hne
      | cons first rest =>
      have hf_nin : first ∉ rest := (List.nodup_cons.mp hnd).1
      have hnd_rest : rest.Nodup := (List.nodup_cons.mp hnd).2
      have hLlen : (first :: rest).length = rest.length + 1 := rfl
      have hrest_pos : 1 ≤ rest.length := by
        rw [hLlen] at heven
        omega
      have inner : ∀ is : List Nat, is.Nodup → (∀ j ∈ is, j < rest.length) →
          ∃ outs, gapLoop (fun ps => gapFuel f ps [] [] []) first rest [] [] is = .ok outs ∧
            outs.length = is.length * Nat.doubleFactorial ((first :: rest).length - 3) ∧
            (∀ s ∈ outs, (IsPM (first :: rest) s ∧ s.length = (first :: rest).length) ∧
              ∃ j ∈ is, dictGet s first = some (rest.getD j "")) ∧
            (∀ j ∈ is, ∀ d, IsPM (first :: rest) d →
              dictGet d first = some (rest.getD j "") → ∃ s ∈ outs, EqOn s d) ∧
            outs.Pairwise (fun s t => ¬ EqOn s t) := by
        intro is
        induction is with
        | nil =>
            intro _ _
            refine ⟨[], rfl, by simp, by simp, by simp, List.Pairwise.nil⟩
        | cons i is' ihis =>
            intro hisnd hisbd
            have hi : i < rest.length := hisbd i (List.mem_cons_self _ _)
            have hi_nin : i ∉ is' := (List.nodup_cons.mp hisnd).1
            obtain ⟨touts, teq, tlen, tsound, tcomp, tpw⟩ :=
              ihis (List.nodup_cons.mp hisnd).2
                (fun j hj => hisbd j (List.mem_cons_of_mem _ hj))
            have hperm : rest.Perm (rest.getD i "" :: rest.eraseIdx i) :=
              perm_getD_cons_eraseIdx rest i "" hi
            have hnd_on : (rest.getD i "" :: rest.eraseIdx i).Nodup :=
              hperm.nodup_iff.mp hnd_rest
            have ho_nin : rest.getD i "" ∉ rest.eraseIdx i := (List.nodup_cons.mp hnd_on).1
            have hnd_next : (rest.eraseIdx i).Nodup := (List.nodup_cons.mp hnd_on).2
            have hnext_len : (rest.eraseIdx i).length = rest.length - 1 := by
              have := hperm.length_eq
              simp at this
              omega
            have ho_rest : rest.getD i "" ∈ rest := getD_mem rest i "" hi
            have hfo : first ≠ rest.getD i "" := fun he => hf_nin (he ▸ ho_rest)
            have hfpos : 1 ≤ f := by
              rw [hLlen] at hlt
              omega
            have hcond : (excludedPair [] first (rest.getD i "") ||
                inSameGroup [] first (rest.getD i "")) = false := rfl
            have branch : ∃ bouts,
                gapLoop (fun ps => gapFuel f ps [] [] []) first rest [] [] (i :: is') =
                  .ok (bouts ++ touts) ∧
                bouts.length = Nat.doubleFactorial ((first :: rest).length - 3) ∧
                (∀ s ∈ bouts, (IsPM (first :: rest) s ∧ s.length = (first :: rest).length) ∧
                  dictGet s first = some (rest.getD i "")) ∧
                (∀ d, IsPM (first :: rest) d → dictGet d first = some (rest.getD i "") →
                  ∃ s ∈ bouts, EqOn s d) ∧
                bouts.Pairwise (fun s t => ¬ EqOn s t) := by
              by_cases hnil : rest.eraseIdx i = []
              · -- two remaining participants: the compensation inserts the pair
                have hrl1 : rest.length = 1 := by
                  rw [hnil] at hnext_len
                  simp at hnext_len
                  omega
                obtain ⟨f', rfl⟩ : ∃ f', f = f' + 1 := ⟨f - 1, by omega⟩
                have hgap : gapFuel (f' + 1) (rest.eraseIdx i) [] [] [] = .ok [] := by
                  rw [hnil]
                  rfl
                have hpm_nil : IsPM (rest.eraseIdx i) [] := by
                  rw [hnil]
                  exact ⟨List.Pairwise.nil, by simp [keysOf], by simp, by simp⟩
                obtain ⟨hpm0, hlen0, hget0⟩ :=
                  extend_pair_isPM first (rest.getD i "") rest (rest.eraseIdx i) []
                    hf_nin hperm ho_nin hpm_nil (by simp [hnil])
                refine ⟨[[(first, rest.getD i ""), (rest.getD i "", first)]], ?_, ?_, ?_, ?_, ?_⟩
                · rw [gapLoop]
                  simp only [hcond, Bool.false_eq_true, if_false, hgap,
                    show _weed_out_wrong_size [] = [] from rfl, List.map_nil,
                    show ([] : List Pairing).isEmpty = true from rfl, if_true, teq]
                · rw [hLlen, hrl1]
                  rfl
                · intro s hs
                  rw [List.mem_singleton] at hs
                  subst hs
                  exact ⟨⟨by simpa using hpm0, by simpa using hlen0⟩, by simpa using hget0⟩
                · intro d hd hdf
                  have hd' := restrict_isPM first (rest.getD i "") rest (rest.eraseIdx i) d
                    hf_nin hperm ho_nin hd hdf
                  have hd'nil : d.filter
                      (fun p => decide (p.1 ≠ first ∧ p.1 ≠ rest.getD i "")) = [] := by
                    refine eq_nil_of_keys_empty ?_
                    intro a
                    rw [hnil] at hd'
                    exact hd'.2.1 a
                  have heq0 : EqOn []
                      (d.filter (fun p => decide (p.1 ≠ first ∧ p.1 ≠ rest.getD i ""))) := by
                    rw [hd'nil]
                    exact fun a => rfl
                  have := extend_pair_eqOn first (rest.getD i "") rest (rest.eraseIdx i) [] d
                    hf_nin hperm ho_nin hpm_nil hd hdf heq0
                  exact ⟨[(first, rest.getD i ""), (rest.getD i "", first)],
                    List.mem_singleton.mpr rfl, by simpa using this⟩
                · exact List.pairwise_singleton _ _
              · -- at least four participants: recurse and extend each result
                have hnext_ne : (rest.eraseIdx i).length ≠ 0 := fun h =>
                  hnil (List.length_eq_zero.mp h)
                have hrl2 : 2 ≤ rest.length := by omega
                obtain ⟨outs', heq', hlen', hsound', hcomp', hpw'⟩ :=
                  ih (rest.eraseIdx i) hnil hnd_next
                    (by rw [hnext_len]; rw [hLlen] at heven; omega)
                    (by rw [hnext_len]; rw [hLlen] at hlt; omega)
                have hweed : _weed_out_wrong_size outs' = outs' :=
                  weed_id (fun s hs => (hsound' s hs).2)
                have hnext_sub : ∀ x ∈ rest.eraseIdx i, x ∈ rest := fun x hx =>
                  hperm.mem_iff.mpr (List.mem_cons_of_mem _ hx)
                have hmap : outs'.map (fun s => setAdd (setAdd s (first, rest.getD i ""))
                    (rest.getD i "", first)) =
                    outs'.map (fun s =>
                      s ++ [(first, rest.getD i ""), (rest.getD i "", first)]) := by
                  refine List.map_congr_left ?_
                  intro s hs
                  have hks := (hsound' s hs).1.2.1
                  have hfk : first ∉ keysOf s := fun hm =>
                    hf_nin (hnext_sub first ((hks first).mp hm))
                  have hok : rest.getD i "" ∉ keysOf s := fun hm =>
                    ho_nin ((hks (rest.getD i "")).mp hm)
                  have h1 : (first, rest.getD i "") ∉ s := fun hm =>
                    hfk (List.mem_map.mpr ⟨_, hm, rfl⟩)
                  have h2 : (rest.getD i "", first) ∉ setAdd s (first, rest.getD i "") := by
                    rw [setAdd_not_mem h1]
                    intro hm
                    rcases List.mem_append.mp hm with hm | hm
                    · exact hok (List.mem_map.mpr ⟨_, hm, rfl⟩)
                    · rw [List.mem_singleton] at hm
                      exact hfo (congrArg Prod.snd hm)
                  rw [setAdd_not_mem h2, setAdd_not_mem h1]
                  simp
                have houts_ne : outs' ≠ [] := by
                  intro h
                  rw [h] at hlen'
                  have := Nat.doubleFactorial_pos ((rest.eraseIdx i).length - 1)
                  simp at hlen'
                  omega
                have hbne : (outs'.map
                    (fun s => s ++ [(first, rest.getD i ""), (rest.getD i "", first)])).isEmpty
                    = false := by
                  refine isEmpty_false_of_ne_zero ?_
                  rw [List.length_map]
                  intro h
                  exact houts_ne (List.length_eq_zero.mp h)
                refine ⟨outs'.map
                  (fun s => s ++ [(first, rest.getD i ""), (rest.getD i "", first)]),
                  ?_, ?_, ?_, ?_, ?_⟩
                · rw [gapLoop]
                  simp only [hcond, Bool.false_eq_true, if_false, heq', hweed, hmap, hbne,
                    if_false, teq]
                · rw [List.length_map, hlen']
                  congr 1
                  rw [hnext_len, hLlen]
                  omega
                · intro s' hs'
                  obtain ⟨s, hs, rfl⟩ := List.mem_map.mp hs'
                  obtain ⟨hpm, hlen, hget⟩ :=
                    extend_pair_isPM first (rest.getD i "") rest (rest.eraseIdx i) s
                      hf_nin hperm ho_nin (hsound' s hs).1 (hsound' s hs).2
                  exact ⟨⟨hpm, hlen⟩, hget⟩
                · intro d hd hdf
                  have hd' := restrict_isPM first (rest.getD i "") rest (rest.eraseIdx i) d
                    hf_nin hperm ho_nin hd hdf
                  obtain ⟨s, hs, heqs⟩ := hcomp' _ hd'
                  refine ⟨s ++ [(first, rest.getD i ""), (rest.getD i "", first)],
                    List.mem_map.mpr ⟨s, hs, rfl⟩, ?_⟩
                  exact extend_pair_eqOn first (rest.getD i "") rest (rest.eraseIdx i) s d
                    hf_nin hperm ho_nin (hsound' s hs).1 hd hdf heqs
                · rw [List.pairwise_map]
                  refine List.Pairwise.imp_of_mem ?_ hpw'
                  intro s t hs ht hst
                  intro habs
                  exact hst (extend_pair_eqOn_inj first (rest.getD i "")
                    (rest.eraseIdx i) s t ((hsound' s hs).1.2.1) ((hsound' t ht).1.2.1) habs)
            obtain ⟨bouts, beq, blen, bsound, bcomp, bpw⟩ := branch
            refine ⟨bouts ++ touts, beq, ?_, ?_, ?_, ?_⟩
            · rw [List.length_append, blen, tlen]
              simp only [List.length_cons]
              ring
            · intro s hs
              rcases List.mem_append.mp hs with h | h
              · exact ⟨(bsound s h).1, i, List.mem_cons_self _ _, (bsound s h).2⟩
              · obtain ⟨hpm, j, hj, hget⟩ := tsound s h
                exact ⟨hpm, j, List.mem_cons_of_mem _ hj, hget⟩
            · intro j hj d hd hdf
              rcases List.mem_cons.mp hj with rfl | hj'
              · obtain ⟨s, hs, heqs⟩ := bcomp d hd hdf
                exact ⟨s, List.mem_append_left _ hs, heqs⟩
              · obtain ⟨s, hs, heqs⟩ := tcomp j hj' d hd hdf
                exact ⟨s, List.mem_append_right _ hs, heqs⟩
            · rw [List.pairwise_append]
              refine ⟨bpw, tpw, ?_⟩
              intro s hs t ht
              obtain ⟨j, hj, hgett⟩ := (tsound t ht).2
              have hgets := (bsound s hs).2
              have hne_ij : i ≠ j := fun he => hi_nin (he ▸ hj)
              have hjlt : j < rest.length := hisbd j (List.mem_cons_of_mem _ hj)
              have hvals : rest.getD i "" ≠ rest.getD j "" := by
                rw [List.getD_eq_getElem rest "" hi, List.getD_eq_getElem rest "" hjlt]
                intro he
                exact hne_ij ((List.Nodup.getElem_inj_iff hnd_rest).mp he)
              intro habs
              have := habs first
              rw [hgets, hgett] at this
              exact hvals (Option.some.inj this)
      obtain ⟨outs, oeq, olen, osound, ocomp, opw⟩ :=
        inner (List.range rest.length) (List.nodup_range _)
          (fun j hj => List.mem_range.mp hj)
      refine ⟨outs, ?_, ?_, fun s hs => (osound s hs).1, ?_, opw⟩
      · rw [gapFuel]
        simp only [show (first :: rest).isEmpty = false from rfl, Bool.false_eq_true,
          if_false, show removeIncluded (first :: rest) [] (first :: rest) =
            .ok (first :: rest) from rfl]
        rw [oeq]
        simp [List.foldl_nil]
      · rw [olen, List.length_range]
        have h2L : 2 ≤ (first :: rest).length := by
          rw [hLlen]
          omega
        rw [doubleFactorial_step ((first :: rest).length) h2L, hLlen]
        simp
      · intro d hd
        have hfk : first ∈ keysOf d := (hd.2.1 first).mpr (List.mem_cons_self _ _)
        obtain ⟨q, hq⟩ := dictGet_isSome_of_mem hfk
        have hqd : (first, q) ∈ d := dictGet_mem hq
        have hqf : first ≠ q := hd.2.2.2 (first, q) hqd
        have hq_keys : q ∈ keysOf d := mem_keysOf.mpr ⟨first, hd.2.2.1 (first, q) hqd⟩
        have hq_rest : q ∈ rest := by
          rcases List.mem_cons.mp ((hd.2.1 q).mp hq_keys) with h | h
          · exact absurd h.symm hqf
          · exact h
        obtain ⟨j, hj, hjq⟩ := List.getElem_of_mem hq_rest
        refine ocomp j (List.mem_range.mpr hj) d hd ?_
        rw [List.getD_eq_getElem rest "" hj, hjq, hq]

/-- The guessing loop of `n_guesses` terminates with a value when the
candidate set consists of pairwise-distinct perfect matchings containing a
representative of the truth: every iteration strictly shrinks the set
(the guess is eliminated unless it pins the truth down), and the truth's
representative always survives. -/
theorem guessLoopFuel_spec (oracle : Nat → Nat) (names : List String) (truth : Pairing)
    (hnodup : names.Nodup) (heven : names.length % 2 = 0) (htruth : IsPM names truth) :
    ∀ (fuel : Nat) (poss : List Pairing) (c guesses : Nat),
      poss.length < fuel →
      (∀ p ∈ poss, IsPM names p) →
      poss.Pairwise (fun s t => ¬ EqOn s t) →
      (∃ t ∈ poss, EqOn t truth) →
      ∃ g, guessLoopFuel oracle truth fuel poss c guesses = .ok (guesses + g) ∧
        g + 1 ≤ poss.length := by
  intro fuel
  induction fuel with
  | zero => intro poss c guesses hlt _ _ _; omega
  | succ f ihf =>
      intro poss c guesses hlt hall hpw hex
      obtain ⟨t0, ht0, heqt0⟩ := hex
      by_cases hle : poss.length ≤ 1
      · cases poss with
        | nil => exact absurd ht0 (List.not_mem_nil t0)
        | cons p ps =>
            refine ⟨0, ?_, by simp⟩
            rw [guessLoopFuel, if_pos hle]
            rfl
      · have h2 : 2 ≤ poss.length := by omega
        have hgi : oracle c % poss.length < poss.length := Nat.mod_lt _ (by omega)
        have hguess_mem : poss.getD (oracle c % poss.length) [] ∈ poss :=
          getD_mem poss _ [] hgi
        have hguess_pm : IsPM names (poss.getD (oracle c % poss.length) []) :=
          hall _ hguess_mem
        have henf : _enforce_symmetric_pairing (poss.getD (oracle c % poss.length) []) =
            (.ok (), poss.getD (oracle c % poss.length) []) :=
          enforce_symmetric_id hguess_pm.1 (fun p hp => hguess_pm.2.2.1 p hp)
        have hset : poss.set (oracle c % poss.length)
            (poss.getD (oracle c % poss.length) []) = poss :=
          set_getD_eq_self poss _ [] hgi
        obtain ⟨li, hli⟩ : ∃ li,
            _get_lights (poss.getD (oracle c % poss.length) []) truth = some li :=
          lights_isSome_of_isPM hguess_pm htruth
        have hfilter : filterCorrect (poss.getD (oracle c % poss.length) []) li poss =
            .ok (poss.filter (fun p =>
              decide (_get_lights (poss.getD (oracle c % poss.length) []) p = some li))) :=
          filterCorrect_spec _ li poss
            (fun p hp => lights_isSome_of_isPM hguess_pm (hall p hp))
        have hsub : (poss.filter (fun p =>
            decide (_get_lights (poss.getD (oracle c % poss.length) []) p = some li))).Sublist
            poss := List.filter_sublist poss
        have hall' : ∀ p ∈ poss.filter (fun p =>
            decide (_get_lights (poss.getD (oracle c % poss.length) []) p = some li)),
            IsPM names p := fun p hp => hall p (hsub.subset hp)
        have hpw' := hpw.sublist hsub
        have ht0w : t0 ∈ poss.filter (fun p =>
            decide (_get_lights (poss.getD (oracle c % poss.length) []) p = some li)) := by
          refine List.mem_filter.mpr ⟨ht0, ?_⟩
          rw [lights_congr heqt0, hli]
          simp
        have hstrict : (poss.filter (fun p =>
            decide (_get_lights (poss.getD (oracle c % poss.length) []) p = some li))).length
            < poss.length := by
          by_cases hg : _get_lights (poss.getD (oracle c % poss.length) [])
              (poss.getD (oracle c % poss.length) []) = some li
          · have hglen : (poss.getD (oracle c % poss.length) []).length = names.length :=
              isPM_length hnodup hguess_pm
            have hself := lights_self hguess_pm.1
            have hli_val : li = names.length / 2 := by
              rw [hg] at hself
              rw [← hglen]
              exact Option.some.inj hself
            have hwe : ∀ w ∈ poss.filter (fun p =>
                decide (_get_lights (poss.getD (oracle c % poss.length) []) p = some li)),
                EqOn (poss.getD (oracle c % poss.length) []) w := by
              intro w hw
              have hpred := (List.mem_filter.mp hw).2
              rw [decide_eq_true_eq] at hpred
              rw [hli_val] at hpred
              exact lights_max_eqOn hnodup heven hguess_pm (hall' w hw) hpred
            have hlen1 : (poss.filter (fun p =>
                decide (_get_lights (poss.getD (oracle c % poss.length) []) p = some li))).length
                ≤ 1 := by
              rcases hwd : poss.filter (fun p =>
                decide (_get_lights (poss.getD (oracle c % poss.length) []) p = some li)) with
                _ | ⟨w1, _ | ⟨w2, ws⟩⟩
              · simp
              · simp
              · exfalso
                rw [hwd] at hpw' hwe
                have hne12 := (List.pairwise_cons.mp hpw').1 w2 (List.mem_cons_self _ _)
                exact hne12 (eqOn_trans
                  (eqOn_symm (hwe w1 (List.mem_cons_self _ _)))
                  (hwe w2 (List.mem_cons_of_mem _ (List.mem_cons_self _ _))))
            omega
          · refine List.length_filter_lt_length_iff_exists.mpr ⟨_, hguess_mem, ?_⟩
            simp only [decide_eq_true_eq]
            exact hg
        obtain ⟨g', hg'eq, hg'le⟩ := ihf
          (poss.filter (fun p =>
            decide (_get_lights (poss.getD (oracle c % poss.length) []) p = some li)))
          (c + 1) (guesses + 1) (by omega) hall' hpw' ⟨t0, ht0w, heqt0⟩
        refine ⟨g' + 1, ?_, by omega⟩
        rw [guessLoopFuel.eq_def]
        simp only [if_neg hle, henf, hset, hli, hfilter, hg'eq]
        congr 1
        omega

/-- For every even contestant count of at least 2 and every randomness
source, `n_guesses` terminates and returns a guess count strictly below
the number of perfect matchings, `(contestants - 1)` double factorial. -/
theorem n_guesses_even_bound (contestants : Nat) (oracle : Nat → Nat)
    (heven : contestants % 2 = 0) (h2 : 2 ≤ contestants) :
    ∃ g, n_guesses contestants oracle = .ok g ∧
      g < Nat.doubleFactorial (contestants - 1) := by
  have hnames_len : ((List.range contestants).map (fun i => toString i)).length
      = contestants := by simp
  have hnames_nd := range_names_nodup contestants
  have hnames_even :
      ((List.range contestants).map (fun i => toString i)).length % 2 = 0 := by
    rw [hnames_len]; exact heven
  have hnames_ne : (List.range contestants).map (fun i => toString i) ≠ [] :=
    List.length_pos.mp (by omega)
  obtain ⟨truth, c', hgen, hknd, hkeys, hsym, hnofix⟩ :=
    genRandomFuel_spec oracle
      (((List.range contestants).map (fun i => toString i)).length + 1)
      ((List.range contestants).map (fun i => toString i)) [] 0
      hnames_nd hnames_even (by omega) List.nodup_nil
      (fun p hp => absurd hp (List.not_mem_nil p))
      (fun p hp => absurd hp (List.not_mem_nil p))
      (fun x _ h => absurd h (List.not_mem_nil x))
  have htruth : IsPM ((List.range contestants).map (fun i => toString i)) truth := by
    refine ⟨hknd, fun a => ?_, hsym, hnofix⟩
    rw [hkeys a]
    simp [keysOf]
  have henf : _enforce_symmetric_pairing truth = (.ok (), truth) :=
    enforce_symmetric_id hknd hsym
  obtain ⟨outs, hgap, houtlen, hall, hcomp, hpw⟩ :=
    gap_spec (((List.range contestants).map (fun i => toString i)).length + 1)
      ((List.range contestants).map (fun i => toString i))
      hnames_ne hnames_nd hnames_even (by omega)
  have hmap : outs.map toDict = outs := by
    have h1 : outs.map toDict = outs.map id :=
      List.map_congr_left (fun s hs => toDict_eq_self ((hall s hs).1).1)
    simpa using h1
  obtain ⟨g, hloop, hgle⟩ :=
    guessLoopFuel_spec oracle ((List.range contestants).map (fun i => toString i))
      truth hnames_nd hnames_even htruth (outs.length + 1) outs c' 0 (by omega)
      (fun p hp => (hall p hp).1) hpw (hcomp truth htruth)
  have hloop' : guessLoopFuel oracle truth (outs.length + 1) outs c' 0 = .ok g := by
    rw [hloop, Nat.zero_add]
  refine ⟨g, ?_, ?_⟩
  · rw [n_guesses, _generate_random_pairing, hgen]
    simp only [henf, _get_all_possible_pairings, hgap, hmap, hloop']
  · rw [houtlen, hnames_len] at hgle
    omega

/-- C5, counterexample: with 2 participants the simulator terminates but
returns 0, below the claimed lower bound of 1, and with the odd
participant count 1 it fails with an `IndexError` instead of returning a
value. -/
theorem c5_simulator_counterexample :
    n_guesses 2 (fun _ => 0) = .ok 0 ∧
    n_guesses 1 (fun _ => 0) = .error .indexError :=
  ⟨rfl, rfl⟩

/-- C5, amended: for every randomness source, an odd participant count
makes `n_guesses` fail with the `IndexError` of the random-truth
generation (it pops a partner from an empty list) rather than return a
value; participant count 2 terminates with 0 — at most the matching
count 1, but below the claimed lower bound of 1; and every even
participant count of at least 2 terminates with a guess count strictly
below the number of perfect matchings, `(contestants - 1)` double
factorial. -/
theorem c5_simulator_amended (contestants : Nat) (oracle : Nat → Nat) :
    (contestants % 2 = 1 → n_guesses contestants oracle = .error .indexError) ∧
    n_guesses 2 oracle = .ok 0 ∧
    (contestants % 2 = 0 → 2 ≤ contestants →
      ∃ g, n_guesses contestants oracle = .ok g ∧
        g < Nat.doubleFactorial (contestants - 1)) :=
  ⟨fun h => n_guesses_odd_fails contestants oracle h, n_guesses_two_ok oracle,
    fun he h2 => n_guesses_even_bound contestants oracle he h2⟩

/-- Witness for C5's amended statement at contestant counts 3, 2 and 4. -/
theorem c5_simulator_amended_witness :
    n_guesses 3 (fun _ => 0) = .error .indexError ∧
    n_guesses 2 (fun _ => 0) = .ok 0 ∧
    ∃ g, n_guesses 4 (fun _ => 0) = .ok g ∧ g < Nat.doubleFactorial (4 - 1) :=
  ⟨(c5_simulator_amended 3 (fun _ => 0)).1 (by decide),
    (c5_simulator_amended 2 (fun _ => 0)).2.1,
    (c5_simulator_amended 4 (fun _ => 0)).2.2 (by decide) (by decide)⟩
